import Mathlib

/-!
Verification of the BCS (Binary Canonical Serialization) codec and the
Move type-tag model of the aptopher Go client library.

The Go sources are shallowly embedded as follows:
* `[]byte` buffers become `List Nat` whose elements are byte values
  (`< 256`; validity is carried as a hypothesis where arithmetic needs it);
* fixed-width machine integers become `Nat` with explicit `% 2 ^ w`
  reductions wherever the Go code truncates or wraps;
* `*big.Int` becomes `Int` (the `nil` pointer case of a read result is
  `Option Int`);
* a `Serializer` is a record of its output buffer and latched error,
  a `Deserializer` is a record of its input, cursor and latched error, and
  each Go method becomes an explicit state-passing function;
* Go strings become `List Char` (for the textual type-tag grammar) or the
  list of their UTF-8 bytes (for the BCS string encoding, which is
  byte-transparent in Go).
-/

set_option maxRecDepth 8000

namespace Aptopher

/-- Errors latched by a Serializer or Deserializer.  The Go code uses
`fmt.Errorf` values; only the identity of the failure matters here. -/
inductive Err where
  | endOfInput
  | invalidBool
  | uleb128Overflow
  | invalidOptionTag
  | u128Negative
  | u128TooLarge
  | u256Negative
  | u256TooLarge
  deriving DecidableEq, Repr

/-- `bcs.Serializer`: output buffer plus a single latched error
(serializer.go, lines 12-15). -/
structure SerSt where
  buf : List Nat
  err : Option Err
  deriving DecidableEq, Repr

/-- `bcs.NewSerializer()` (serializer.go line 18). -/
def mkSer : SerSt := ⟨[], none⟩

/-- `Serializer.SetError` (serializer.go lines 28-32): only the first
error is kept. -/
def SerSt.setError (s : SerSt) (e : Err) : SerSt :=
  if s.err = none then { s with err := some e } else s

/-- `Serializer.ToBytes` (serializer.go lines 35-40): `nil` on error. -/
def SerSt.toBytes (s : SerSt) : Option (List Nat) :=
  if s.err ≠ none then none else some s.buf

/-- `Serializer.Bool` (serializer.go lines 44-53). -/
def serBool (v : Bool) (s : SerSt) : SerSt :=
  if s.err ≠ none then s
  else { s with buf := s.buf ++ [if v then 1 else 0] }

/-- `Serializer.U8` (serializer.go lines 56-61); the argument is a Go
`uint8`, modelled by reducing `% 256`. -/
def serU8 (v : Nat) (s : SerSt) : SerSt :=
  if s.err ≠ none then s
  else { s with buf := s.buf ++ [v % 256] }

/-- `binary.LittleEndian.PutUintN`: the `w` little-endian base-256 digits
of `v`. -/
def leBytes (w v : Nat) : List Nat :=
  (List.range w).map (fun i => v / 256 ^ i % 256)

/-- `Serializer.U16` (serializer.go lines 64-71). -/
def serU16 (v : Nat) (s : SerSt) : SerSt :=
  if s.err ≠ none then s
  else { s with buf := s.buf ++ leBytes 2 (v % 2 ^ 16) }

/-- `Serializer.U32` (serializer.go lines 74-81). -/
def serU32 (v : Nat) (s : SerSt) : SerSt :=
  if s.err ≠ none then s
  else { s with buf := s.buf ++ leBytes 4 (v % 2 ^ 32) }

/-- `Serializer.U64` (serializer.go lines 84-91). -/
def serU64 (v : Nat) (s : SerSt) : SerSt :=
  if s.err ≠ none then s
  else { s with buf := s.buf ++ leBytes 8 (v % 2 ^ 64) }

/-- Fuel-indexed body of `natBytesBE`; `fuel = n` always suffices since
`n / 256 < n` for positive `n`. -/
def natBytesBEGo : Nat → Nat → List Nat
  | 0, _ => []
  | fuel + 1, n => if n = 0 then [] else natBytesBEGo fuel (n / 256) ++ [n % 256]

/-- `big.Int.Bytes()`: minimal big-endian byte representation of a
non-negative value (empty for zero). -/
def natBytesBE (n : Nat) : List Nat :=
  natBytesBEGo (n + 1) n

/-- `Serializer.U128` (serializer.go lines 94-118): range checks, then 16
little-endian bytes (the reversed big-endian form, zero-padded high). -/
def serU128 (v : Int) (s : SerSt) : SerSt :=
  if s.err ≠ none then s
  else if v < 0 then s.setError .u128Negative
  else
    let bytes := natBytesBE v.toNat
    if bytes.length > 16 then s.setError .u128TooLarge
    else { s with buf := s.buf ++ (bytes.reverse ++ List.replicate (16 - bytes.length) 0) }

/-- `Serializer.U256` (serializer.go lines 121-145). -/
def serU256 (v : Int) (s : SerSt) : SerSt :=
  if s.err ≠ none then s
  else if v < 0 then s.setError .u256Negative
  else
    let bytes := natBytesBE v.toNat
    if bytes.length > 32 then s.setError .u256TooLarge
    else { s with buf := s.buf ++ (bytes.reverse ++ List.replicate (32 - bytes.length) 0) }

/-- Fuel-indexed body of `uleb128Loop`; `fuel = v + 1` always suffices
since `v / 128 < v` for positive `v`. -/
def uleb128LoopGo : Nat → Nat → List Nat
  | 0, _ => []
  | fuel + 1, v =>
    if v / 128 = 0 then [v % 128]
    else (v % 128 + 128) :: uleb128LoopGo fuel (v / 128)

/-- The byte-emitting loop of `Serializer.Uleb128` (serializer.go lines
153-163): 7 payload bits per byte, continuation bit 0x80.
`v % 128` renders `v & 0x7f` and `v / 128` renders `v >> 7`. -/
def uleb128Loop (v : Nat) : List Nat :=
  uleb128LoopGo (v + 1) v

/-- `Serializer.Uleb128` (serializer.go lines 149-164); the argument is a
Go `uint32`, modelled by reducing `% 2 ^ 32`. -/
def serUleb128 (v : Nat) (s : SerSt) : SerSt :=
  if s.err ≠ none then s
  else { s with buf := s.buf ++ uleb128Loop (v % 2 ^ 32) }

/-- `Serializer.Bytes` (serializer.go lines 167-173): uleb128 length
prefix (`uint32(len(v))`) followed by the raw bytes. -/
def serBytes (v : List Nat) (s : SerSt) : SerSt :=
  if s.err ≠ none then s
  else
    let s2 := serUleb128 v.length s
    { s2 with buf := s2.buf ++ v }

/-- `Serializer.FixedBytes` (serializer.go lines 177-182): raw bytes,
no length prefix. -/
def serFixedBytes (v : List Nat) (s : SerSt) : SerSt :=
  if s.err ≠ none then s
  else { s with buf := s.buf ++ v }

/-- `Serializer.String` (serializer.go lines 185-187): the string's UTF-8
bytes, length-prefixed.  Go strings are byte-transparent, so the model
takes the byte list directly. -/
def serString (v : List Nat) (s : SerSt) : SerSt :=
  serBytes v s

/-- `bcs.SerializeSequence` (serializer.go lines 199-207): uleb128 count,
then each element in order. -/
def serSequence {α : Type} (mar : α → SerSt → SerSt) (items : List α) (s : SerSt) : SerSt :=
  if s.err ≠ none then s
  else items.foldl (fun st it => mar it st) (serUleb128 items.length s)

/-- `bcs.SerializeOption` (serializer.go lines 211-221): presence byte,
then the value if present. -/
def serOption {α : Type} (mar : α → SerSt → SerSt) (opt : Option α) (s : SerSt) : SerSt :=
  if s.err ≠ none then s
  else
    match opt with
    | none => serU8 0 s
    | some v => mar v (serU8 1 s)

/-- `bcs.Deserializer`: input bytes, read cursor, latched error
(deserializer.go lines 33-37). -/
structure DeSt where
  data : List Nat
  offset : Nat
  err : Option Err
  deriving DecidableEq, Repr

/-- `bcs.NewDeserializer(data)` (deserializer.go lines 40-42). -/
def mkDe (data : List Nat) : DeSt := ⟨data, 0, none⟩

/-- `Deserializer.SetError` (deserializer.go lines 50-54). -/
def DeSt.setError (d : DeSt) (e : Err) : DeSt :=
  if d.err = none then { d with err := some e } else d

/-- `Deserializer.Remaining` (deserializer.go lines 57-59). -/
def DeSt.remaining (d : DeSt) : Nat :=
  d.data.length - d.offset

/-- `Deserializer.checkRemaining` (deserializer.go lines 62-71). -/
def checkRemaining (n : Nat) (d : DeSt) : DeSt × Bool :=
  if d.err ≠ none then (d, false)
  else if d.offset + n > d.data.length then (d.setError .endOfInput, false)
  else (d, true)

/-- `Deserializer.Bool` (deserializer.go lines 74-89): the byte must be
exactly 0 or 1. -/
def deBool (d : DeSt) : DeSt × Bool :=
  match checkRemaining 1 d with
  | (d1, false) => (d1, false)
  | (d1, true) =>
    let b := d1.data.getD d1.offset 0
    let d2 : DeSt := { d1 with offset := d1.offset + 1 }
    if b = 0 then (d2, false)
    else if b = 1 then (d2, true)
    else (d2.setError .invalidBool, false)

/-- `Deserializer.U8` (deserializer.go lines 92-99). -/
def deU8 (d : DeSt) : DeSt × Nat :=
  match checkRemaining 1 d with
  | (d1, false) => (d1, 0)
  | (d1, true) =>
    ({ d1 with offset := d1.offset + 1 }, d1.data.getD d1.offset 0)

/-- `binary.LittleEndian.UintN`: value of a little-endian byte list. -/
def leVal (bs : List Nat) : Nat :=
  bs.foldr (fun b acc => b + 256 * acc) 0

/-- `Deserializer.U16` (deserializer.go lines 102-109). -/
def deU16 (d : DeSt) : DeSt × Nat :=
  match checkRemaining 2 d with
  | (d1, false) => (d1, 0)
  | (d1, true) =>
    ({ d1 with offset := d1.offset + 2 }, leVal ((d1.data.drop d1.offset).take 2))

/-- `Deserializer.U32` (deserializer.go lines 112-119). -/
def deU32 (d : DeSt) : DeSt × Nat :=
  match checkRemaining 4 d with
  | (d1, false) => (d1, 0)
  | (d1, true) =>
    ({ d1 with offset := d1.offset + 4 }, leVal ((d1.data.drop d1.offset).take 4))

/-- `Deserializer.U64` (deserializer.go lines 122-129). -/
def deU64 (d : DeSt) : DeSt × Nat :=
  match checkRemaining 8 d with
  | (d1, false) => (d1, 0)
  | (d1, true) =>
    ({ d1 with offset := d1.offset + 8 }, leVal ((d1.data.drop d1.offset).take 8))

/-- `big.Int.SetBytes`: value of a big-endian byte list. -/
def beVal (bs : List Nat) : Nat :=
  bs.foldl (fun acc b => acc * 256 + b) 0

/-- `Deserializer.U128` (deserializer.go lines 132-144): 16 bytes,
reversed to big-endian and fed to `SetBytes`; `nil` on error is `none`. -/
def deU128 (d : DeSt) : DeSt × Option Int :=
  match checkRemaining 16 d with
  | (d1, false) => (d1, none)
  | (d1, true) =>
    ({ d1 with offset := d1.offset + 16 },
      some (beVal ((d1.data.drop d1.offset).take 16).reverse))

/-- `Deserializer.U256` (deserializer.go lines 147-159). -/
def deU256 (d : DeSt) : DeSt × Option Int :=
  match checkRemaining 32 d with
  | (d1, false) => (d1, none)
  | (d1, true) =>
    ({ d1 with offset := d1.offset + 32 },
      some (beVal ((d1.data.drop d1.offset).take 32).reverse))

/-- The read loop of `Deserializer.Uleb128` (deserializer.go lines
166-184).  `b % 128` renders `b & 0x7f`, `b % 256 < 128` renders
`b & 0x80 == 0`, and the `uint32` register wraps `% 2 ^ 32`.  The loop
body runs at most five times — starting from `shift = 0` the guard
`shift + 7 > 28` stops a sixth iteration — so a fuel of five is exact. -/
def deUlebLoop : Nat → DeSt → Nat → Nat → DeSt × Nat
  | 0, d, _, _ => (d, 0)
  | fuel + 1, d, result, shift =>
    match checkRemaining 1 d with
    | (d1, false) => (d1, 0)
    | (d1, true) =>
      let b := d1.data.getD d1.offset 0
      let d2 : DeSt := { d1 with offset := d1.offset + 1 }
      let result2 := result ||| (b % 128 * 2 ^ shift % 2 ^ 32)
      if b % 256 < 128 then (d2, result2)
      else if shift + 7 > 28 then (d2.setError .uleb128Overflow, 0)
      else deUlebLoop fuel d2 result2 (shift + 7)

/-- `Deserializer.Uleb128` (deserializer.go lines 162-185). -/
def deUleb128 (d : DeSt) : DeSt × Nat :=
  if d.err ≠ none then (d, 0)
  else deUlebLoop 5 d 0 0

/-- The mathematical value denoted by a ULEB128 byte string: 7 payload
bits per group, little-endian group order, reading up to and including
the first byte without the continuation bit.  This is a specification
device (not code from the repository), used to state what a byte string
*denotes* independently of the decoder's 32-bit register. -/
def ulebDenote : List Nat → Nat
  | [] => 0
  | b :: rest =>
    if b % 256 < 128 then b % 128 else b % 128 + 128 * ulebDenote rest

/-- `Deserializer.Bytes` (deserializer.go lines 188-200): uleb128 length,
then that many bytes; `nil` on error is `none`. -/
def deBytes (d : DeSt) : DeSt × Option (List Nat) :=
  let (d1, len) := deUleb128 d
  if d1.err ≠ none then (d1, none)
  else
    match checkRemaining len d1 with
    | (d2, false) => (d2, none)
    | (d2, true) =>
      ({ d2 with offset := d2.offset + len }, some ((d2.data.drop d2.offset).take len))

/-- `Deserializer.FixedBytes` (deserializer.go lines 203-211). -/
def deFixedBytes (len : Nat) (d : DeSt) : DeSt × Option (List Nat) :=
  match checkRemaining len d with
  | (d1, false) => (d1, none)
  | (d1, true) =>
    ({ d1 with offset := d1.offset + len }, some ((d1.data.drop d1.offset).take len))

/-- `Deserializer.String` (deserializer.go lines 227-229): `string(d.Bytes())`,
byte-transparent in Go. -/
def deString (d : DeSt) : DeSt × Option (List Nat) :=
  deBytes d

/-- The element loop of `bcs.DeserializeSequence` (deserializer.go lines
249-258), aborting on the first latched error. -/
def deSeqLoop {α : Type} (unmar : DeSt → DeSt × α) : Nat → DeSt → DeSt × Option (List α)
  | 0, d => (d, some [])
  | n + 1, d =>
    let (d1, item) := unmar d
    if d1.err ≠ none then (d1, none)
    else
      match deSeqLoop unmar n d1 with
      | (d2, none) => (d2, none)
      | (d2, some items) => (d2, some (item :: items))

/-- `bcs.DeserializeSequence` (deserializer.go lines 241-259). -/
def deSequence {α : Type} (unmar : DeSt → DeSt × α) (d : DeSt) : DeSt × Option (List α) :=
  if d.err ≠ none then (d, none)
  else
    let (d1, len) := deUleb128 d
    if d1.err ≠ none then (d1, none)
    else deSeqLoop unmar len d1

/-- `bcs.DeserializeOption` (deserializer.go lines 263-285): presence
byte 0 or 1, anything else is an error. -/
def deOption {α : Type} (unmar : DeSt → DeSt × α) (d : DeSt) : DeSt × Option α :=
  if d.err ≠ none then (d, none)
  else
    let (d1, hasValue) := deU8 d
    if d1.err ≠ none then (d1, none)
    else if hasValue = 0 then (d1, none)
    else if hasValue = 1 then
      let (d2, item) := unmar d1
      if d2.err ≠ none then (d2, none) else (d2, some item)
    else (d1.setError .invalidOptionTag, none)

/-- `bcs.Deserialize` (deserializer.go lines 288-298): run a read
operation on fresh state and fail on a latched error or trailing bytes. -/
def deserializeWith {α : Type} (unmar : DeSt → DeSt × α) (data : List Nat) : Option α :=
  let (d, v) := unmar (mkDe data)
  if d.err ≠ none then none
  else if d.remaining > 0 then none
  else some v

/-- `bcs.Serialize` composed with `bcs.Deserialize`: serialize on fresh
state, then deserialize the produced bytes with the matching read
operation, demanding full consumption. -/
def rt {α : Type} (mar : SerSt → SerSt) (unmar : DeSt → DeSt × α) : Option α :=
  let s := mar mkSer
  if s.err ≠ none then none else deserializeWith unmar s.buf

/-!  The textual Move type-tag model (ledger_info.go) together with the
account-address hex helpers it uses (internal/hex, account_address.go).
Go strings are modelled as `List Char`; an `AccountAddress` is its list
of 32 byte values.  -/

/-- `unicode.IsSpace` as used by `strings.TrimSpace` (ASCII-faithful). -/
def isSpaceGo (c : Char) : Bool := c.isWhitespace

/-- `strings.TrimSpace`: strip leading and trailing whitespace. -/
def trimSpace (s : List Char) : List Char :=
  ((s.dropWhile isSpaceGo).reverse.dropWhile isSpaceGo).reverse

/-- `strings.Index(s, "<")` (as an `Option` instead of `-1`). -/
def angleIdx : List Char → Option Nat
  | [] => none
  | c :: rest => if c = '<' then some 0 else (angleIdx rest).map (· + 1)

/-- Index of the first occurrence of `"::"` (as an `Option`). -/
def sepIdx : List Char → Option Nat
  | [] => none
  | ':' :: ':' :: _ => some 0
  | _ :: rest => (sepIdx rest).map (· + 1)

/-- `strings.SplitN(s, "::", n + 1)`: split around the first `n`
occurrences of `"::"`. -/
def splitSep2 : Nat → List Char → List (List Char)
  | 0, s => [s]
  | n + 1, s =>
    match sepIdx s with
    | none => [s]
    | some i => s.take i :: splitSep2 n (s.drop (i + 2))

/-- Lowercase hex digit of a value below 16 (`encoding/hex`). -/
def hexDigitChar (n : Nat) : Char :=
  if n < 10 then Char.ofNat (48 + n) else Char.ofNat (87 + n)

/-- `hex.EncodeToString`: two lowercase hex digits per byte. -/
def hexEncodeChars : List Nat → List Char
  | [] => []
  | b :: rest => hexDigitChar (b / 16) :: hexDigitChar (b % 16) :: hexEncodeChars rest

/-- `hex.Encode`: `"0x"` plus the hex digits (AccountAddress.String). -/
def encodeHex (bs : List Nat) : List Char :=
  '0' :: 'x' :: hexEncodeChars bs

/-- The zero-stripping loop of `AccountAddress.ShortString`: drop leading
`'0'` digits but keep at least one character. -/
def shortStrip : List Char → List Char
  | [] => []
  | c :: rest => if c = '0' ∧ rest ≠ [] then shortStrip rest else c :: rest

/-- `AccountAddress.ShortString` (account_address.go lines 71-79). -/
def shortString (a : List Nat) : List Char :=
  '0' :: 'x' :: shortStrip (hexEncodeChars a)

/-- Value of one hex digit character (`encoding/hex` digit table). -/
def fromHexChar (c : Char) : Option Nat :=
  if '0' ≤ c ∧ c ≤ '9' then some (c.toNat - 48)
  else if 'a' ≤ c ∧ c ≤ 'f' then some (c.toNat - 87)
  else if 'A' ≤ c ∧ c ≤ 'F' then some (c.toNat - 55)
  else none

/-- `hex.DecodeString` on an even-length digit list. -/
def hexDecPairs : List Char → Option (List Nat)
  | [] => some []
  | [_] => none
  | c1 :: c2 :: rest =>
    match fromHexChar c1, fromHexChar c2, hexDecPairs rest with
    | some h, some l, some r => some ((h * 16 + l) :: r)
    | _, _, _ => none

/-- `strings.TrimPrefix`. -/
def trimPfx (p s : List Char) : List Char :=
  if p.isPrefixOf s then s.drop p.length else s

/-- `hex.Decode` (internal/hex): strip a `0x`/`0X` prefix, left-pad an
odd-length string with `'0'`, then decode. -/
def hexDecode (s : List Char) : Option (List Nat) :=
  let s1 := trimPfx ['0', 'x'] s
  let s2 := trimPfx ['0', 'X'] s1
  let s3 := if s2.length % 2 = 1 then '0' :: s2 else s2
  hexDecPairs s3

/-- `hex.DecodeFixed`: error if longer than `size` bytes, else left-pad
with zero bytes. -/
def decodeFixed (s : List Char) (size : Nat) : Option (List Nat) :=
  match hexDecode s with
  | none => none
  | some data =>
    if data.length > size then none
    else some (List.replicate (size - data.length) 0 ++ data)

/-- `ParseAccountAddress` (account_address.go lines 44-52). -/
def parseAccountAddress (s : List Char) : Option (List Nat) :=
  decodeFixed s 32

/-- The `TypeTagValue` variants of ledger_info.go.  A `TypeTag` is an
`Option TTV`: the Go `TypeTag.Value` interface field may be `nil`.  A
vector's element type and a struct's type parameters are themselves
`TypeTag`s. -/
inductive TTV where
  | boolT
  | u8T
  | u16T
  | u32T
  | u64T
  | u128T
  | u256T
  | addressT
  | signerT
  | vectorT (elem : Option TTV)
  | structT (addr : List Nat) (mdl : List Char) (nm : List Char)
      (params : List (Option TTV))

/-- `strings.Join(strs, ", ")`. -/
def joinComma : List (List Char) → List Char
  | [] => []
  | [x] => x
  | x :: r => x ++ (',' :: ' ' :: joinComma r)

mutual

/-- `TypeTagValue.String` for each variant (ledger_info.go). -/
def ttvString : TTV → List Char
  | .boolT => "bool".toList
  | .u8T => "u8".toList
  | .u16T => "u16".toList
  | .u32T => "u32".toList
  | .u64T => "u64".toList
  | .u128T => "u128".toList
  | .u256T => "u256".toList
  | .addressT => "address".toList
  | .signerT => "signer".toList
  | .vectorT e => "vector<".toList ++ ttString e ++ ['>']
  | .structT addr mdl nm params =>
    shortString addr ++ (':' :: ':' :: mdl) ++ (':' :: ':' :: nm) ++
      (if params.isEmpty then []
       else '<' :: (joinComma (ttListStrings params) ++ ['>']))

/-- `TypeTag.String` (ledger_info.go lines 247-252): the empty string
for a nil value. -/
def ttString : Option TTV → List Char
  | none => []
  | some v => ttvString v

/-- The strings of a type-parameter list, in order. -/
def ttListStrings : List (Option TTV) → List (List Char)
  | [] => []
  | p :: r => ttString p :: ttListStrings r

end

/-- The comma-splitting loop of `parseTypeParams` (ledger_info.go lines
530-563): split at commas that sit at angle-bracket depth zero; the
final segment is emitted only when nonempty (`start < len(s)`). -/
def splitSegs : List Char → Int → List Char → List (List Char)
  | [], _, acc => if acc = [] then [] else [acc]
  | c :: rest, depth, acc =>
    if c = '<' then splitSegs rest (depth + 1) (acc ++ [c])
    else if c = '>' then splitSegs rest (depth - 1) (acc ++ [c])
    else if c = ',' ∧ depth = 0 then acc :: splitSegs rest depth []
    else splitSegs rest depth (acc ++ [c])

/-- Parse each comma-separated segment (trimmed) through the supplied
recursive parser; `p` is `ParseTypeTag` at the remaining fuel. -/
def parseSegsGo (p : List Char → Option TTV) : List (List Char) → Option (List (Option TTV))
  | [] => some []
  | x :: r =>
    match p (trimSpace x) with
    | none => none
    | some t =>
      match parseSegsGo p r with
      | none => none
      | some ts => some (some t :: ts)

/-- `parseTypeParams` (ledger_info.go lines 530-563). -/
def parseTypeParamsGo (p : List Char → Option TTV) (s : List Char) :
    Option (List (Option TTV)) :=
  parseSegsGo p (splitSegs s 0 [])

/-- The tail of `parseStructTag`: split the head on `"::"` into exactly
three parts, parse the address, then the type parameters if present. -/
def parseStructHeadGo (p : List Char → Option TTV) (head tps : List Char) :
    Option TTV :=
  let parts := splitSep2 2 head
  if parts.length = 3 then
    match parseAccountAddress (parts.getD 0 []) with
    | none => none
    | some addr =>
      if tps = [] then some (.structT addr (parts.getD 1 []) (parts.getD 2 []) [])
      else
        match parseTypeParamsGo p tps with
        | none => none
        | some ps => some (.structT addr (parts.getD 1 []) (parts.getD 2 []) ps)
  else none

/-- `parseStructTag` (ledger_info.go lines 488-527). -/
def parseStructTagGo (p : List Char → Option TTV) (s : List Char) : Option TTV :=
  match angleIdx s with
  | some i =>
    if ['>'].isSuffixOf s then
      parseStructHeadGo p (s.take i) ((s.drop (i + 1)).dropLast)
    else none
  | none => parseStructHeadGo p s []

/-- `ParseTypeTag` (ledger_info.go lines 449-486), with a fuel argument
consumed once per nesting level; `none` is a parse error. -/
def parseTypeTagF : Nat → List Char → Option TTV
  | 0, _ => none
  | fuel + 1, s0 =>
    let s := trimSpace s0
    if s = "bool".toList then some .boolT
    else if s = "u8".toList then some .u8T
    else if s = "u16".toList then some .u16T
    else if s = "u32".toList then some .u32T
    else if s = "u64".toList then some .u64T
    else if s = "u128".toList then some .u128T
    else if s = "u256".toList then some .u256T
    else if s = "address".toList then some .addressT
    else if s = "signer".toList then some .signerT
    else if "vector<".toList.isPrefixOf s ∧ ['>'].isSuffixOf s then
      match parseTypeTagF fuel ((s.drop 7).dropLast) with
      | none => none
      | some elem => some (.vectorT (some elem))
    else parseStructTagGo (parseTypeTagF fuel) s

/-- `ParseTypeTag` at adequate fuel: one fuel unit is spent per nesting
level, and a level costs at least one character of the input. -/
def goParseTypeTag (s : List Char) : Option TTV :=
  parseTypeTagF (s.length + 1) s

/-- The head of a struct-tag string: everything before the first `'<'`
(the whole string when there is none), as in parseStructTag's
`s = s[:angleStart]`. -/
def structHead (s : List Char) : List Char :=
  match angleIdx s with
  | some i => s.take i
  | none => s

/-- Decimal digit test (`'0'` through `'9'`). -/
def isDigitGo (c : Char) : Bool :=
  decide ('0' ≤ c) && decide (c ≤ '9')

/-- Value of a decimal digit string. -/
def natOfDigits (ds : List Char) : Nat :=
  ds.foldl (fun acc c => acc * 10 + (c.toNat - 48)) 0

/-- Semantics of Go's `big.Int.SetString(s, 10)` as called by
`U128FromString`/`U256FromString` (ledger_info.go lines 87-93 and
164-170): an optional leading `'+'` or `'-'` sign followed by one or
more decimal digits, consuming the whole string; at base 10 no
underscore separators and no `0x` prefix are accepted. -/
def setStringBase10 (s : List Char) : Option Int :=
  match s with
  | [] => none
  | c :: rest =>
    let signDigits : Bool × List Char :=
      if c = '-' then (true, rest)
      else if c = '+' then (false, rest)
      else (false, s)
    if signDigits.2 = [] then none
    else if signDigits.2.all isDigitGo then
      some ((if signDigits.1 then -1 else 1) * (natOfDigits signDigits.2 : Int))
    else none

/-- `U128FromString` (ledger_info.go lines 87-93): `big.Int.SetString`
at base 10, with no further validation. -/
def U128FromString (s : List Char) : Option Int :=
  setStringBase10 s

/-- `U256FromString` (ledger_info.go lines 164-170). -/
def U256FromString (s : List Char) : Option Int :=
  setStringBase10 s

/-- Byte-validity of an address value: 32 bytes. -/
def addrOK (a : List Nat) : Bool :=
  a.length = 32 && a.all (· < 256)

/-- Move identifier characters: letters, digits, underscore. -/
def identChar (c : Char) : Bool :=
  c.isAlphanum || c = '_'

mutual

/-- Well-formedness for the amended round-trip law: the value is
non-nil everywhere, addresses are 32 valid bytes, and module and struct
names consist of identifier characters only. -/
def wfTTV : TTV → Bool
  | .vectorT e => wfOpt e
  | .structT addr mdl nm params =>
    addrOK addr && mdl.all identChar && nm.all identChar && wfList params
  | _ => true

def wfOpt : Option TTV → Bool
  | none => false
  | some v => wfTTV v

def wfList : List (Option TTV) → Bool
  | [] => true
  | p :: r => wfOpt p && wfList r

end

mutual

/-- Nesting depth of a type tag: the fuel needed to parse its print. -/
def depthTTV : TTV → Nat
  | .vectorT e => 1 + depthOpt e
  | .structT _ _ _ params => 1 + depthList params
  | _ => 1

def depthOpt : Option TTV → Nat
  | none => 0
  | some v => depthTTV v

def depthList : List (Option TTV) → Nat
  | [] => 0
  | p :: r => max (depthOpt p) (depthList r)

end

/-- Angle-bracket depth contribution of one character, as tracked by the
`depth` counter of `parseTypeParams`. -/
def chD (c : Char) : Int :=
  if c = '<' then 1 else if c = '>' then -1 else 0

/-- Net angle-bracket depth change over a string. -/
def segDelta (s : List Char) : Int :=
  (s.map chD).sum

/-- Starting from depth `d`, the string never puts a comma at depth 0
(so `splitSegs` passes over it without splitting). -/
def segOK : Int → List Char → Bool
  | _, [] => true
  | d, c :: r =>
    if c = '<' then segOK (d + 1) r
    else if c = '>' then segOK (d - 1) r
    else if c = ',' then decide (d ≠ 0) && segOK d r
    else segOK d r

/-!  Helper lemmas: little-endian digit lists and big-integer bytes.  -/

theorem leBytes_succ (w v : Nat) :
    leBytes (w + 1) v = v % 256 :: leBytes w (v / 256) := by
  unfold leBytes
  rw [List.range_succ_eq_map, List.map_cons, List.map_map]
  refine congrArg₂ _ (by simp) (List.map_congr_left ?_)
  intro i _
  simp only [Function.comp_apply]
  rw [pow_succ' 256 i, Nat.div_div_eq_div_mul, Nat.mul_comm]

theorem leBytes_length (w v : Nat) : (leBytes w v).length = w := by
  simp [leBytes]

theorem leBytes_zero_val (w : Nat) : leBytes w 0 = List.replicate w 0 := by
  simp [leBytes, List.eq_replicate_iff]

theorem leVal_cons (b : Nat) (bs : List Nat) :
    leVal (b :: bs) = b + 256 * leVal bs := rfl

theorem leVal_leBytes (w v : Nat) : leVal (leBytes w v) = v % 256 ^ w := by
  induction w generalizing v with
  | zero => simp [leBytes, leVal, Nat.mod_one]
  | succ w ih =>
    rw [leBytes_succ, leVal_cons, ih, pow_succ' 256 w, Nat.mod_mul]

theorem beVal_append_singleton (xs : List Nat) (b : Nat) :
    beVal (xs ++ [b]) = beVal xs * 256 + b := by
  simp [beVal, List.foldl_append]

theorem beVal_reverse (bs : List Nat) : beVal bs.reverse = leVal bs := by
  induction bs with
  | nil => rfl
  | cons b bs ih =>
    rw [List.reverse_cons, beVal_append_singleton, ih, leVal_cons]
    ring

theorem natBytesBEGo_congr (f1 : Nat) :
    ∀ f2 n, n < f1 → n < f2 → natBytesBEGo f1 n = natBytesBEGo f2 n := by
  induction f1 with
  | zero => omega
  | succ f1 ih =>
    intro f2 n h1 h2
    match f2, h2 with
    | f2 + 1, h2 =>
      show (if n = 0 then _ else _) = (if n = 0 then _ else _)
      by_cases hn : n = 0
      · simp [hn]
      · have hd : n / 256 < n := Nat.div_lt_self (by omega) (by omega)
        simp only [hn, if_false]
        rw [ih f2 (n / 256) (by omega) (by omega)]

theorem natBytesBE_eq (n : Nat) :
    natBytesBE n = if n = 0 then [] else natBytesBE (n / 256) ++ [n % 256] := by
  show natBytesBEGo (n + 1) n = _
  by_cases hn : n = 0
  · simp [hn, natBytesBEGo]
  · have hd : n / 256 < n := Nat.div_lt_self (by omega) (by omega)
    show (if n = 0 then _ else natBytesBEGo n (n / 256) ++ _) = _
    simp only [hn, if_false]
    rw [natBytesBEGo_congr n (n / 256 + 1) (n / 256) (by omega) (by omega)]
    rfl

theorem natBytesBE_length_le (k : Nat) :
    ∀ n, n < 256 ^ k → (natBytesBE n).length ≤ k := by
  induction k with
  | zero =>
    intro n h
    have : n = 0 := by simpa using h
    simp [this, natBytesBE, natBytesBEGo]
  | succ k ih =>
    intro n h
    rw [natBytesBE_eq]
    by_cases hn : n = 0
    · simp [hn]
    · have : n / 256 < 256 ^ k := by
        rw [Nat.div_lt_iff_lt_mul (by omega)]
        calc n < 256 ^ (k + 1) := h
        _ = 256 ^ k * 256 := by rw [pow_succ]
      simp only [hn, if_false, List.length_append, List.length_cons, List.length_nil]
      have := ih (n / 256) this
      omega

theorem lt_of_natBytesBE_length_le (k : Nat) :
    ∀ n, (natBytesBE n).length ≤ k → n < 256 ^ k := by
  induction k with
  | zero =>
    intro n h
    by_cases hn : n = 0
    · simp [hn]
    · rw [natBytesBE_eq] at h
      simp [hn] at h
  | succ k ih =>
    intro n h
    by_cases hn : n = 0
    · rw [hn]
      positivity
    · rw [natBytesBE_eq] at h
      simp only [hn, if_false, List.length_append, List.length_cons, List.length_nil] at h
      have h2 := ih (n / 256) (by omega)
      have h3 : n = 256 * (n / 256) + n % 256 := (Nat.div_add_mod n 256).symm
      have h4 : n % 256 < 256 := Nat.mod_lt n (by omega)
      calc n = 256 * (n / 256) + n % 256 := h3
      _ < 256 * 256 ^ k := by omega
      _ = 256 ^ (k + 1) := (pow_succ' 256 k).symm

/-- The 16/32-byte buffer written by `Serializer.U128`/`U256` — the
reversed minimal big-endian bytes, zero-padded at the top — is exactly
the fixed-width little-endian digit list. -/
theorem natBytesBE_pad_eq_leBytes (k : Nat) :
    ∀ n, n < 256 ^ k →
      (natBytesBE n).reverse ++ List.replicate (k - (natBytesBE n).length) 0 =
        leBytes k n := by
  induction k with
  | zero =>
    intro n h
    have : n = 0 := by simpa using h
    simp [this, natBytesBE, natBytesBEGo, leBytes]
  | succ k ih =>
    intro n h
    by_cases hn : n = 0
    · subst hn
      rw [leBytes_zero_val]
      simp [natBytesBE, natBytesBEGo]
    · have hdiv : n / 256 < 256 ^ k := by
        rw [Nat.div_lt_iff_lt_mul (by omega)]
        calc n < 256 ^ (k + 1) := h
        _ = 256 ^ k * 256 := by rw [pow_succ]
      rw [natBytesBE_eq]
      simp only [hn, if_false, List.reverse_append, List.reverse_cons,
        List.reverse_nil, List.nil_append, List.singleton_append,
        List.length_append, List.length_cons, List.length_nil,
        List.cons_append]
      have harith : k + 1 - ((natBytesBE (n / 256)).length + 1) =
          k - (natBytesBE (n / 256)).length := by omega
      rw [harith, leBytes_succ]
      exact congrArg (n % 256 :: ·) (ih (n / 256) hdiv)

/-!  Helper lemmas: the ULEB128 encoder loop.  -/

theorem uleb128LoopGo_congr (f1 : Nat) :
    ∀ f2 v, v < f1 → v < f2 → uleb128LoopGo f1 v = uleb128LoopGo f2 v := by
  induction f1 with
  | zero => omega
  | succ f1 ih =>
    intro f2 v h1 h2
    match f2, h2 with
    | f2 + 1, h2 =>
      show (if v / 128 = 0 then _ else _) = (if v / 128 = 0 then _ else _)
      by_cases hv : v / 128 = 0
      · simp [hv]
      · have hd : v / 128 < v := Nat.div_lt_self (by omega) (by omega)
        simp only [hv, if_false]
        rw [ih f2 (v / 128) (by omega) (by omega)]

theorem uleb128Loop_eq (v : Nat) :
    uleb128Loop v =
      if v / 128 = 0 then [v % 128]
      else (v % 128 + 128) :: uleb128Loop (v / 128) := by
  show uleb128LoopGo (v + 1) v = _
  by_cases hv : v / 128 = 0
  · simp [hv, uleb128LoopGo]
  · have hd : v / 128 < v := Nat.div_lt_self (by omega) (by omega)
    show (if v / 128 = 0 then _ else _ :: uleb128LoopGo v (v / 128)) = _
    simp only [hv, if_false]
    rw [uleb128LoopGo_congr v (v / 128 + 1) (v / 128) (by omega) (by omega)]
    rfl

theorem uleb128Loop_length_pos (v : Nat) : 1 ≤ (uleb128Loop v).length := by
  rw [uleb128Loop_eq]
  by_cases hv : v / 128 = 0 <;> simp [hv]

theorem uleb128Loop_length_le (k : Nat) :
    ∀ v, v < 128 ^ (k + 1) → (uleb128Loop v).length ≤ k + 1 := by
  induction k with
  | zero =>
    intro v h
    rw [uleb128Loop_eq]
    have : v / 128 = 0 := Nat.div_eq_of_lt (by simpa using h)
    simp [this]
  | succ k ih =>
    intro v h
    rw [uleb128Loop_eq]
    by_cases hv : v / 128 = 0
    · simp [hv]
    · have : v / 128 < 128 ^ (k + 1) := by
        rw [Nat.div_lt_iff_lt_mul (by omega)]
        calc v < 128 ^ (k + 2) := h
        _ = 128 ^ (k + 1) * 128 := by rw [pow_succ]
      have := ih (v / 128) this
      simp only [hv, if_false, List.length_cons]
      omega

/-!  Serializer characterizations: on an error-free state each write
appends a fixed byte list and leaves the error unset.  -/

theorem serBool_app (v : Bool) (s : SerSt) (h : s.err = none) :
    serBool v s = ⟨s.buf ++ [if v then 1 else 0], none⟩ := by
  obtain ⟨buf, err⟩ := s
  cases h
  simp [serBool]

theorem serU8_app (v : Nat) (s : SerSt) (h : s.err = none) :
    serU8 v s = ⟨s.buf ++ [v % 256], none⟩ := by
  obtain ⟨buf, err⟩ := s
  cases h
  simp [serU8]

theorem serU16_app (v : Nat) (s : SerSt) (h : s.err = none) :
    serU16 v s = ⟨s.buf ++ leBytes 2 (v % 2 ^ 16), none⟩ := by
  obtain ⟨buf, err⟩ := s
  cases h
  simp [serU16]

theorem serU32_app (v : Nat) (s : SerSt) (h : s.err = none) :
    serU32 v s = ⟨s.buf ++ leBytes 4 (v % 2 ^ 32), none⟩ := by
  obtain ⟨buf, err⟩ := s
  cases h
  simp [serU32]

theorem serU64_app (v : Nat) (s : SerSt) (h : s.err = none) :
    serU64 v s = ⟨s.buf ++ leBytes 8 (v % 2 ^ 64), none⟩ := by
  obtain ⟨buf, err⟩ := s
  cases h
  simp [serU64]

theorem serUleb128_app (v : Nat) (s : SerSt) (h : s.err = none) :
    serUleb128 v s = ⟨s.buf ++ uleb128Loop (v % 2 ^ 32), none⟩ := by
  obtain ⟨buf, err⟩ := s
  cases h
  simp [serUleb128]

theorem serBytes_app (bs : List Nat) (s : SerSt) (h : s.err = none) :
    serBytes bs s = ⟨s.buf ++ uleb128Loop (bs.length % 2 ^ 32) ++ bs, none⟩ := by
  obtain ⟨buf, err⟩ := s
  cases h
  simp [serBytes, serUleb128]

theorem serFixedBytes_app (bs : List Nat) (s : SerSt) (h : s.err = none) :
    serFixedBytes bs s = ⟨s.buf ++ bs, none⟩ := by
  obtain ⟨buf, err⟩ := s
  cases h
  simp [serFixedBytes]

theorem int_toNat_lt_pow (v : Int) (a b : Nat) (h0 : 0 ≤ v)
    (hpow : ((a : Nat) : Int) = 2 ^ b) (hlt : v < 2 ^ b) : v.toNat < a := by
  have h2 : (v.toNat : Int) = v := Int.toNat_of_nonneg h0
  omega

theorem serU128_app (v : Int) (h0 : 0 ≤ v) (hlt : v < 2 ^ 128)
    (s : SerSt) (h : s.err = none) :
    serU128 v s = ⟨s.buf ++ leBytes 16 v.toNat, none⟩ := by
  have hv16 : v.toNat < 256 ^ 16 := int_toNat_lt_pow v _ 128 h0 (by norm_num) hlt
  have hlen : (natBytesBE v.toNat).length ≤ 16 := natBytesBE_length_le 16 _ hv16
  obtain ⟨buf, err⟩ := s
  cases h
  simp only [serU128]
  rw [if_neg (by simp), if_neg (by omega)]
  simp only [if_neg (by omega : ¬ (natBytesBE v.toNat).length > 16)]
  rw [natBytesBE_pad_eq_leBytes 16 v.toNat hv16]

theorem serU256_app (v : Int) (h0 : 0 ≤ v) (hlt : v < 2 ^ 256)
    (s : SerSt) (h : s.err = none) :
    serU256 v s = ⟨s.buf ++ leBytes 32 v.toNat, none⟩ := by
  have hv32 : v.toNat < 256 ^ 32 := int_toNat_lt_pow v _ 256 h0 (by norm_num) hlt
  have hlen : (natBytesBE v.toNat).length ≤ 32 := natBytesBE_length_le 32 _ hv32
  obtain ⟨buf, err⟩ := s
  cases h
  simp only [serU256]
  rw [if_neg (by simp), if_neg (by omega)]
  simp only [if_neg (by omega : ¬ (natBytesBE v.toNat).length > 32)]
  rw [natBytesBE_pad_eq_leBytes 32 v.toNat hv32]

theorem serU8_foldl (items : List Nat) :
    ∀ s : SerSt, s.err = none →
      items.foldl (fun st it => serU8 it st) s = ⟨s.buf ++ items.map (· % 256), none⟩ := by
  induction items with
  | nil =>
    intro s h
    obtain ⟨buf, err⟩ := s
    cases h
    simp
  | cons x items ih =>
    intro s h
    rw [List.foldl_cons, serU8_app x s h, ih _ rfl]
    simp

/-!  Deserializer prefix lemmas: reading from a state whose unread input
starts with the encoding of a value consumes exactly that encoding and
returns the value.  -/

theorem getElem?_of_drop (l : List Nat) (n v : Nat) (rest : List Nat)
    (h : l.drop n = v :: rest) : l[n]? = some v := by
  have h3 := List.getElem?_drop l n 0
  rw [h] at h3
  simpa using h3.symm

theorem window (d : DeSt) (h : d.err = none) (enc rest : List Nat)
    (hoff : d.offset ≤ d.data.length)
    (hd : d.data.drop d.offset = enc ++ rest) :
    d.offset + enc.length ≤ d.data.length ∧
    checkRemaining enc.length d = (d, true) ∧
    (d.data.drop d.offset).take enc.length = enc ∧
    d.data.drop (d.offset + enc.length) = rest := by
  have hlen : d.data.length - d.offset = enc.length + rest.length := by
    have h2 := congrArg List.length hd
    simpa using h2
  have h1 : d.offset + enc.length ≤ d.data.length := by omega
  refine ⟨h1, ?_, ?_, ?_⟩
  · unfold checkRemaining
    rw [if_neg (by simp [h]), if_neg (by omega)]
  · rw [hd]
    exact List.take_left enc rest
  · have h3 := List.drop_drop enc.length d.offset d.data
    rw [hd, List.drop_left] at h3
    exact h3.symm

theorem deBool_prefix (d : DeSt) (h : d.err = none)
    (hoff : d.offset ≤ d.data.length) (v : Bool) (rest : List Nat)
    (hd : d.data.drop d.offset = (if v then 1 else 0) :: rest) :
    deBool d = ({ d with offset := d.offset + 1 }, v) := by
  have hw := window d h [if v then 1 else 0] rest hoff (by simpa using hd)
  have hb := getElem?_of_drop d.data d.offset (if v then 1 else 0) rest hd
  unfold deBool
  rw [show (1 : Nat) = [if v then (1 : Nat) else 0].length from rfl, hw.2.1]
  cases v <;> simp [List.getD, hb]

theorem deU8_prefix (d : DeSt) (h : d.err = none)
    (hoff : d.offset ≤ d.data.length) (v : Nat) (rest : List Nat)
    (hd : d.data.drop d.offset = v :: rest) :
    deU8 d = ({ d with offset := d.offset + 1 }, v) := by
  have hw := window d h [v] rest hoff (by simpa using hd)
  have hb := getElem?_of_drop d.data d.offset v rest hd
  unfold deU8
  rw [show (1 : Nat) = [v].length from rfl, hw.2.1]
  simp [List.getD, hb]

theorem deU16_prefix (d : DeSt) (h : d.err = none)
    (hoff : d.offset ≤ d.data.length) (v : Nat) (hv : v < 2 ^ 16) (rest : List Nat)
    (hd : d.data.drop d.offset = leBytes 2 v ++ rest) :
    deU16 d = ({ d with offset := d.offset + 2 }, v) := by
  have hw := window d h (leBytes 2 v) rest hoff hd
  rw [leBytes_length] at hw
  have h2 : (256 : Nat) ^ 2 = 2 ^ 16 := by norm_num
  unfold deU16
  rw [hw.2.1]
  simp only [hw.2.2.1, leVal_leBytes, h2, Nat.mod_eq_of_lt hv]

theorem deU32_prefix (d : DeSt) (h : d.err = none)
    (hoff : d.offset ≤ d.data.length) (v : Nat) (hv : v < 2 ^ 32) (rest : List Nat)
    (hd : d.data.drop d.offset = leBytes 4 v ++ rest) :
    deU32 d = ({ d with offset := d.offset + 4 }, v) := by
  have hw := window d h (leBytes 4 v) rest hoff hd
  rw [leBytes_length] at hw
  have h2 : (256 : Nat) ^ 4 = 2 ^ 32 := by norm_num
  unfold deU32
  rw [hw.2.1]
  simp only [hw.2.2.1, leVal_leBytes, h2, Nat.mod_eq_of_lt hv]

theorem deU64_prefix (d : DeSt) (h : d.err = none)
    (hoff : d.offset ≤ d.data.length) (v : Nat) (hv : v < 2 ^ 64) (rest : List Nat)
    (hd : d.data.drop d.offset = leBytes 8 v ++ rest) :
    deU64 d = ({ d with offset := d.offset + 8 }, v) := by
  have hw := window d h (leBytes 8 v) rest hoff hd
  rw [leBytes_length] at hw
  have h2 : (256 : Nat) ^ 8 = 2 ^ 64 := by norm_num
  unfold deU64
  rw [hw.2.1]
  simp only [hw.2.2.1, leVal_leBytes, h2, Nat.mod_eq_of_lt hv]

theorem deU128_prefix (d : DeSt) (h : d.err = none)
    (hoff : d.offset ≤ d.data.length) (v : Int) (h0 : 0 ≤ v) (hv : v < 2 ^ 128)
    (rest : List Nat)
    (hd : d.data.drop d.offset = leBytes 16 v.toNat ++ rest) :
    deU128 d = ({ d with offset := d.offset + 16 }, some v) := by
  have hv16 : v.toNat < 256 ^ 16 := int_toNat_lt_pow v _ 128 h0 (by norm_num) hv
  have hw := window d h (leBytes 16 v.toNat) rest hoff hd
  rw [leBytes_length] at hw
  unfold deU128
  rw [hw.2.1]
  simp only [hw.2.2.1, beVal_reverse, leVal_leBytes, Nat.mod_eq_of_lt hv16,
    Int.toNat_of_nonneg h0]

theorem deU256_prefix (d : DeSt) (h : d.err = none)
    (hoff : d.offset ≤ d.data.length) (v : Int) (h0 : 0 ≤ v) (hv : v < 2 ^ 256)
    (rest : List Nat)
    (hd : d.data.drop d.offset = leBytes 32 v.toNat ++ rest) :
    deU256 d = ({ d with offset := d.offset + 32 }, some v) := by
  have hv32 : v.toNat < 256 ^ 32 := int_toNat_lt_pow v _ 256 h0 (by norm_num) hv
  have hw := window d h (leBytes 32 v.toNat) rest hoff hd
  rw [leBytes_length] at hw
  unfold deU256
  rw [hw.2.1]
  simp only [hw.2.2.1, beVal_reverse, leVal_leBytes, Nat.mod_eq_of_lt hv32,
    Int.toNat_of_nonneg h0]

theorem lor_eq_add_of_lt {a b k : Nat} (ha : a < 2 ^ k) :
    a ||| b * 2 ^ k = a + b * 2 ^ k := by
  have h := Nat.mul_add_lt_is_or ha b
  rw [Nat.mul_comm b (2 ^ k)]
  rw [Nat.lor_comm]
  omega

theorem deUlebLoop_prefix :
    ∀ (fuel v shift result : Nat) (d : DeSt) (rest : List Nat),
      d.err = none →
      d.offset ≤ d.data.length →
      d.data.drop d.offset = uleb128Loop v ++ rest →
      shift = 7 * (5 - fuel) →
      1 ≤ fuel → fuel ≤ 5 →
      v < 2 ^ (32 - shift) →
      result < 2 ^ shift →
      deUlebLoop fuel d result shift =
        ({ d with offset := d.offset + (uleb128Loop v).length },
          result + v * 2 ^ shift) := by
  intro fuel
  induction fuel with
  | zero => omega
  | succ f ih =>
    intro v shift result d rest h hoff hd hshift h1 h5 hv hres
    have hshift28 : shift ≤ 28 := by omega
    have hpow : (2 : Nat) ^ (32 - shift) * 2 ^ shift = 2 ^ 32 := by
      rw [← pow_add]
      congr 1
      omega
    rw [uleb128Loop_eq v] at hd ⊢
    by_cases hsmall : v / 128 = 0
    · -- last byte: continuation bit clear
      have hv128 : v < 128 := by
        rcases Nat.lt_or_ge v 128 with h' | h'
        · exact h'
        · exfalso
          have := Nat.div_le_div_right (c := 128) h'
          simp at this
          omega
      simp only [hsmall, if_true, Nat.mod_eq_of_lt hv128] at hd ⊢
      have hw := window d h [v] rest hoff hd
      have hb := getElem?_of_drop d.data d.offset v rest hd
      have hnowrap : v * 2 ^ shift < 2 ^ 32 := by
        calc v * 2 ^ shift < 2 ^ (32 - shift) * 2 ^ shift :=
          mul_lt_mul_of_pos_right hv (Nat.two_pow_pos shift)
        _ = 2 ^ 32 := hpow
      simp only [deUlebLoop]
      rw [show (1 : Nat) = [v].length from rfl, hw.2.1]
      simp only [List.getD, List.get?_eq_getElem?, hb, Option.getD_some]
      rw [if_pos (by omega : v % 256 < 128)]
      rw [Nat.mod_eq_of_lt hv128, Nat.mod_eq_of_lt hnowrap, lor_eq_add_of_lt hres]
    · -- continuation byte
      have hvge : 128 ≤ v := by
        rcases Nat.lt_or_ge v 128 with h' | h'
        · exfalso
          exact hsmall (Nat.div_eq_of_lt h')
        · exact h'
      have hshift21 : shift ≤ 21 := by
        by_contra hgt
        have h28 : shift = 28 := by omega
        rw [h28] at hv
        have : (2 : Nat) ^ (32 - 28) = 16 := by norm_num
        omega
      have hf1 : 1 ≤ f := by omega
      simp only [hsmall, if_false] at hd ⊢
      have hw := window d h [v % 128 + 128] (uleb128Loop (v / 128) ++ rest) hoff
        (by simpa using hd)
      have hb := getElem?_of_drop d.data d.offset (v % 128 + 128)
        (uleb128Loop (v / 128) ++ rest) (by simpa using hd)
      have hmod : v % 128 < 128 := Nat.mod_lt v (by omega)
      have hb256 : (v % 128 + 128) % 256 = v % 128 + 128 := Nat.mod_eq_of_lt (by omega)
      have hnowrap : v % 128 * 2 ^ shift < 2 ^ 32 := by
        calc v % 128 * 2 ^ shift < 128 * 2 ^ shift :=
          mul_lt_mul_of_pos_right hmod (Nat.two_pow_pos shift)
        _ = 2 ^ (7 + shift) := by rw [pow_add]; norm_num
        _ ≤ 2 ^ 32 := Nat.pow_le_pow_right (by omega) (by omega)
      have hstep : (v % 128 + 128) % 128 = v % 128 := by omega
      simp only [deUlebLoop]
      rw [show (1 : Nat) = [v % 128 + 128].length from rfl, hw.2.1]
      simp only [List.getD, List.get?_eq_getElem?, hb, Option.getD_some]
      rw [if_neg (by omega : ¬ (v % 128 + 128) % 256 < 128)]
      rw [if_neg (by omega : ¬ shift + 7 > 28)]
      have hres2lt : result ||| (v % 128 + 128) % 128 * 2 ^ shift % 2 ^ 32 < 2 ^ (shift + 7) := by
        rw [hstep, Nat.mod_eq_of_lt hnowrap]
        refine Nat.or_lt_two_pow ?_ ?_
        · exact lt_of_lt_of_le hres (Nat.pow_le_pow_right (by omega) (by omega))
        · calc v % 128 * 2 ^ shift < 128 * 2 ^ shift :=
            mul_lt_mul_of_pos_right hmod (Nat.two_pow_pos shift)
          _ = 2 ^ (shift + 7) := by rw [pow_add]; ring
      have hrec := ih (v / 128) (shift + 7)
        (result ||| (v % 128 + 128) % 128 * 2 ^ shift % 2 ^ 32)
        ({ d with offset := d.offset + 1 }) rest h (by simpa using hw.1)
        (by
          have := hw.2.2.2
          simpa using this)
        (by omega) hf1 (by omega)
        (by
          have hdiv : v / 128 < 2 ^ (32 - (shift + 7)) := by
            rw [Nat.div_lt_iff_lt_mul (by omega : (0:Nat) < 128)]
            calc v < 2 ^ (32 - shift) := hv
            _ = 2 ^ (32 - (shift + 7)) * 128 := by
              rw [show (128 : Nat) = 2 ^ 7 from rfl, ← pow_add]
              congr 1
              omega
          exact hdiv)
        hres2lt
      simp only [List.length_cons, List.length_nil] at hrec ⊢
      rw [hrec]
      refine congrArg₂ Prod.mk ?_ ?_
      · congr 1
        omega
      · rw [hstep, Nat.mod_eq_of_lt hnowrap, lor_eq_add_of_lt hres]
        have hsplit : v = 128 * (v / 128) + v % 128 := (Nat.div_add_mod v 128).symm
        have hp7 : (2 : Nat) ^ (shift + 7) = 2 ^ shift * 128 := by
          rw [pow_add]
          norm_num
        calc result + v % 128 * 2 ^ shift + v / 128 * 2 ^ (shift + 7)
            = result + (128 * (v / 128) + v % 128) * 2 ^ shift := by
              rw [hp7]; ring
        _ = result + v * 2 ^ shift := by rw [← hsplit]

theorem deUleb128_prefix (d : DeSt) (h : d.err = none)
    (hoff : d.offset ≤ d.data.length) (v : Nat) (hv : v < 2 ^ 32)
    (rest : List Nat) (hd : d.data.drop d.offset = uleb128Loop v ++ rest) :
    deUleb128 d = ({ d with offset := d.offset + (uleb128Loop v).length }, v) := by
  unfold deUleb128
  rw [if_neg (by simp [h])]
  have h5 := deUlebLoop_prefix 5 v 0 0 d rest h hoff hd (by norm_num) (by norm_num)
    (by norm_num) (by simpa using hv) (by norm_num)
  simpa using h5

/-- The decoder's 32-bit register never leaves the 32-bit range. -/
theorem deUlebLoop_result_lt (fuel : Nat) :
    ∀ (d : DeSt) (result shift : Nat), result < 2 ^ 32 →
      (deUlebLoop fuel d result shift).2 < 2 ^ 32 := by
  induction fuel with
  | zero =>
    intro d result shift _
    simpa [deUlebLoop] using Nat.two_pow_pos 32
  | succ f ih =>
    intro d result shift hres
    simp only [deUlebLoop]
    rcases hcr : checkRemaining 1 d with ⟨d1, ok⟩
    cases ok
    · simpa using Nat.two_pow_pos 32
    · simp only []
      split_ifs with hb hs
      · exact Nat.or_lt_two_pow hres (Nat.mod_lt _ (by norm_num))
      · simpa using Nat.two_pow_pos 32
      · exact ih _ _ _ (Nat.or_lt_two_pow hres (Nat.mod_lt _ (by norm_num)))

/-- The decode loop latches the overflow error exactly when the next
`fuel` unread bytes exist and all carry the continuation bit (so that a
further, sixth-group shift would be needed). -/
theorem deUlebLoop_overflow (fuel : Nat) :
    ∀ (d : DeSt) (result shift : Nat),
      d.err = none → shift = 7 * (5 - fuel) → 1 ≤ fuel → fuel ≤ 5 →
      (∀ x ∈ d.data, x < 256) →
      ((deUlebLoop fuel d result shift).1.err = some Err.uleb128Overflow ↔
        (d.offset + fuel ≤ d.data.length ∧
          ∀ i, i < fuel → 128 ≤ d.data.getD (d.offset + i) 0)) := by
  induction fuel with
  | zero => omega
  | succ f ih =>
    intro d result shift h hshift h1 h5 hv
    simp only [deUlebLoop]
    by_cases hrem : d.offset + 1 > d.data.length
    · have hcr : checkRemaining 1 d = (d.setError Err.endOfInput, false) := by
        unfold checkRemaining
        rw [if_neg (by simp [h]), if_pos hrem]
      rw [hcr]
      simp only [DeSt.setError, h, if_pos]
      constructor
      · intro hcontra
        exact absurd hcontra (by simp)
      · rintro ⟨hc, _⟩
        omega
    · push_neg at hrem
      have hcr : checkRemaining 1 d = (d, true) := by
        unfold checkRemaining
        rw [if_neg (by simp [h]), if_neg (by omega)]
      rw [hcr]
      simp only []
      have hbval : d.data.getD d.offset 0 < 256 := by
        rw [List.getD_eq_getElem d.data 0 (by omega)]
        exact hv _ (List.getElem_mem (by omega))
      by_cases hb : d.data.getD d.offset 0 % 256 < 128
      · rw [if_pos hb]
        constructor
        · intro hcontra
          exact absurd hcontra (by simp [h])
        · rintro ⟨hlen2, hall⟩
          have h0 := hall 0 (by omega)
          simp only [Nat.add_zero] at h0
          omega
      · rw [if_neg hb]
        by_cases hs : shift + 7 > 28
        · rw [if_pos hs]
          simp only [DeSt.setError, h, if_pos]
          have hf0 : f = 0 := by omega
          subst hf0
          constructor
          · intro _
            refine ⟨by omega, ?_⟩
            intro i hi
            have hi0 : i = 0 := by omega
            subst hi0
            simp only [Nat.add_zero]
            omega
          · intro _
            trivial
        · rw [if_neg hs]
          have hf1 : 1 ≤ f := by omega
          rw [ih ({ d with offset := d.offset + 1 })
            (result ||| d.data.getD d.offset 0 % 128 * 2 ^ shift % 2 ^ 32)
            (shift + 7) h (by omega) hf1 (by omega) hv]
          simp only []
          constructor
          · rintro ⟨hlen2, hall⟩
            refine ⟨by omega, ?_⟩
            intro i hi
            match i with
            | 0 =>
              simp only [Nat.add_zero]
              omega
            | i + 1 =>
              have hx := hall i (by omega)
              have harith : d.offset + 1 + i = d.offset + (i + 1) := by omega
              rwa [harith] at hx
          · rintro ⟨hlen2, hall⟩
            refine ⟨by omega, ?_⟩
            intro i hi
            have hx := hall (i + 1) (by omega)
            have harith : d.offset + (i + 1) = d.offset + 1 + i := by omega
            rwa [harith] at hx

theorem deBytes_prefix (d : DeSt) (h : d.err = none)
    (hoff : d.offset ≤ d.data.length) (bs : List Nat) (hlen : bs.length < 2 ^ 32)
    (rest : List Nat)
    (hd : d.data.drop d.offset = uleb128Loop bs.length ++ (bs ++ rest)) :
    deBytes d =
      ({ d with offset := d.offset + (uleb128Loop bs.length).length + bs.length },
        some bs) := by
  have hu := deUleb128_prefix d h hoff bs.length hlen (bs ++ rest) hd
  unfold deBytes
  rw [hu]
  have h2 : ({ d with offset := d.offset + (uleb128Loop bs.length).length } : DeSt).err
      = none := h
  simp only []
  rw [if_neg (by simp [h])]
  have hw := window ({ d with offset := d.offset + (uleb128Loop bs.length).length })
    h2 bs rest (by
      have h3 := congrArg List.length hd
      simp [List.length_append] at h3
      simp
      omega)
    (by
      show d.data.drop (d.offset + (uleb128Loop bs.length).length) = bs ++ rest
      have h3 := List.drop_drop (uleb128Loop bs.length).length d.offset d.data
      rw [hd, List.drop_left] at h3
      exact h3.symm)
  rw [hw.2.1]
  simp only [hw.2.2.1]

theorem deFixedBytes_prefix (d : DeSt) (h : d.err = none)
    (hoff : d.offset ≤ d.data.length) (bs rest : List Nat)
    (hd : d.data.drop d.offset = bs ++ rest) :
    deFixedBytes bs.length d =
      ({ d with offset := d.offset + bs.length }, some bs) := by
  have hw := window d h bs rest hoff hd
  unfold deFixedBytes
  rw [hw.2.1]
  simp only [hw.2.2.1]

theorem deSeqLoopU8_prefix (items : List Nat) :
    ∀ (d : DeSt) (rest : List Nat), d.err = none → d.offset ≤ d.data.length →
      d.data.drop d.offset = items ++ rest →
      deSeqLoop deU8 items.length d =
        ({ d with offset := d.offset + items.length }, some items) := by
  induction items with
  | nil =>
    intro d rest h hoff hd
    simp [deSeqLoop]
  | cons x items ih =>
    intro d rest h hoff hd
    have hw := window d h [x] (items ++ rest) hoff (by simpa using hd)
    have h8 := deU8_prefix d h hoff x (items ++ rest) (by simpa using hd)
    simp only [List.length_cons, deSeqLoop]
    rw [h8]
    rw [if_neg (by simp [h])]
    have hih := ih ({ d with offset := d.offset + 1 }) rest h
      (by simpa using hw.1)
      (by simpa using hw.2.2.2)
    simp only at hih
    rw [hih]
    refine congrArg₂ Prod.mk ?_ rfl
    congr 1
    omega

theorem deSequenceU8_prefix (d : DeSt) (h : d.err = none)
    (hoff : d.offset ≤ d.data.length) (items : List Nat)
    (hlen : items.length < 2 ^ 32) (rest : List Nat)
    (hd : d.data.drop d.offset = uleb128Loop items.length ++ (items ++ rest)) :
    deSequence deU8 d =
      ({ d with offset := d.offset + (uleb128Loop items.length).length + items.length },
        some items) := by
  have hu := deUleb128_prefix d h hoff items.length hlen (items ++ rest) hd
  unfold deSequence
  rw [if_neg (by simp [h]), hu]
  simp only []
  rw [if_neg (by simp [h])]
  have hloop := deSeqLoopU8_prefix items
    ({ d with offset := d.offset + (uleb128Loop items.length).length }) rest h
    (by
      have h3 := congrArg List.length hd
      simp [List.length_append] at h3
      simp
      omega)
    (by
      show d.data.drop (d.offset + (uleb128Loop items.length).length) = items ++ rest
      have h3 := List.drop_drop (uleb128Loop items.length).length d.offset d.data
      rw [hd, List.drop_left] at h3
      exact h3.symm)
  simp only at hloop
  rw [hloop]

theorem deOptionU8_none_prefix (d : DeSt) (h : d.err = none)
    (hoff : d.offset ≤ d.data.length) (rest : List Nat)
    (hd : d.data.drop d.offset = 0 :: rest) :
    deOption deU8 d = ({ d with offset := d.offset + 1 }, none) := by
  have h8 := deU8_prefix d h hoff 0 rest hd
  unfold deOption
  rw [if_neg (by simp [h]), h8]
  simp only []
  rw [if_neg (by simp [h])]
  simp

theorem deOptionU8_some_prefix (d : DeSt) (h : d.err = none)
    (hoff : d.offset ≤ d.data.length) (x : Nat) (rest : List Nat)
    (hd : d.data.drop d.offset = 1 :: x :: rest) :
    deOption deU8 d = ({ d with offset := d.offset + 2 }, some x) := by
  have hw := window d h [1] (x :: rest) hoff (by simpa using hd)
  have h8 := deU8_prefix d h hoff 1 (x :: rest) hd
  have h8b := deU8_prefix ({ d with offset := d.offset + 1 }) h
    (by simpa using hw.1) x rest (by simpa using hw.2.2.2)
  unfold deOption
  rw [if_neg (by simp [h]), h8]
  simp only at h8b
  rw [h] at h8b
  have hoff2 : d.offset + 1 + 1 = d.offset + 2 := by omega
  simp [h8b, h, hoff2]

/-- One composed round trip: if serializing from a fresh serializer
produces exactly `enc` and the matching read on `enc` consumes all of it
returning `v`, then serialize-then-deserialize returns `v`. -/
theorem rt_eq {α : Type} (mar : SerSt → SerSt) (unmar : DeSt → DeSt × α)
    (enc : List Nat) (v : α)
    (hmar : mar mkSer = ⟨enc, none⟩)
    (hun : unmar (mkDe enc) = ({ mkDe enc with offset := enc.length }, v)) :
    rt mar unmar = some v := by
  unfold rt deserializeWith
  rw [hmar]
  simp only [mkDe] at hun
  simp [hun, mkDe, DeSt.remaining]

/-!  Per-type round trips, each stated as serialize-then-deserialize
with full consumption.  -/

theorem rt_bool (b : Bool) : rt (serBool b) deBool = some b := by
  refine rt_eq _ _ [if b then 1 else 0] b
    (by simpa using serBool_app b mkSer rfl) ?_
  have hp := deBool_prefix (mkDe [if b then 1 else 0]) rfl (by simp [mkDe]) b []
    (by simp [mkDe])
  simpa [mkDe] using hp

theorem rt_u8 (v8 : Nat) (h8 : v8 < 2 ^ 8) : rt (serU8 v8) deU8 = some v8 := by
  have hm : v8 % 256 = v8 := Nat.mod_eq_of_lt (by omega)
  refine rt_eq _ _ [v8] v8 ?_ ?_
  · have hs := serU8_app v8 mkSer rfl
    rw [hm] at hs
    simpa using hs
  · have hp := deU8_prefix (mkDe [v8]) rfl (by simp [mkDe]) v8 [] (by simp [mkDe])
    simpa [mkDe] using hp

theorem rt_u16 (v16 : Nat) (h16 : v16 < 2 ^ 16) : rt (serU16 v16) deU16 = some v16 := by
  refine rt_eq _ _ (leBytes 2 v16) v16 ?_ ?_
  · have hs := serU16_app v16 mkSer rfl
    rw [Nat.mod_eq_of_lt h16] at hs
    simpa using hs
  · have hp := deU16_prefix (mkDe (leBytes 2 v16)) rfl (by simp [mkDe]) v16 h16 []
      (by simp [mkDe])
    simpa [mkDe, leBytes_length] using hp

theorem rt_u32 (v32 : Nat) (h32 : v32 < 2 ^ 32) : rt (serU32 v32) deU32 = some v32 := by
  refine rt_eq _ _ (leBytes 4 v32) v32 ?_ ?_
  · have hs := serU32_app v32 mkSer rfl
    rw [Nat.mod_eq_of_lt h32] at hs
    simpa using hs
  · have hp := deU32_prefix (mkDe (leBytes 4 v32)) rfl (by simp [mkDe]) v32 h32 []
      (by simp [mkDe])
    simpa [mkDe, leBytes_length] using hp

theorem rt_u64 (v64 : Nat) (h64 : v64 < 2 ^ 64) : rt (serU64 v64) deU64 = some v64 := by
  refine rt_eq _ _ (leBytes 8 v64) v64 ?_ ?_
  · have hs := serU64_app v64 mkSer rfl
    rw [Nat.mod_eq_of_lt h64] at hs
    simpa using hs
  · have hp := deU64_prefix (mkDe (leBytes 8 v64)) rfl (by simp [mkDe]) v64 h64 []
      (by simp [mkDe])
    simpa [mkDe, leBytes_length] using hp

theorem rt_u128 (v128 : Int) (h128a : 0 ≤ v128) (h128b : v128 < 2 ^ 128) :
    rt (serU128 v128) deU128 = some (some v128) := by
  refine rt_eq _ _ (leBytes 16 v128.toNat) (some v128) ?_ ?_
  · simpa using serU128_app v128 h128a h128b mkSer rfl
  · have hp := deU128_prefix (mkDe (leBytes 16 v128.toNat)) rfl (by simp [mkDe])
      v128 h128a h128b [] (by simp [mkDe])
    simpa [mkDe, leBytes_length] using hp

theorem rt_u256 (v256 : Int) (h256a : 0 ≤ v256) (h256b : v256 < 2 ^ 256) :
    rt (serU256 v256) deU256 = some (some v256) := by
  refine rt_eq _ _ (leBytes 32 v256.toNat) (some v256) ?_ ?_
  · simpa using serU256_app v256 h256a h256b mkSer rfl
  · have hp := deU256_prefix (mkDe (leBytes 32 v256.toNat)) rfl (by simp [mkDe])
      v256 h256a h256b [] (by simp [mkDe])
    simpa [mkDe, leBytes_length] using hp

theorem rt_uleb (vu : Nat) (hu : vu < 2 ^ 32) :
    rt (serUleb128 vu) deUleb128 = some vu := by
  refine rt_eq _ _ (uleb128Loop vu) vu ?_ ?_
  · have hs := serUleb128_app vu mkSer rfl
    rw [Nat.mod_eq_of_lt hu] at hs
    simpa using hs
  · have hp := deUleb128_prefix (mkDe (uleb128Loop vu)) rfl (by simp [mkDe]) vu hu []
      (by simp [mkDe])
    simpa [mkDe] using hp

theorem rt_bytes (bs : List Nat) (hbs : bs.length < 2 ^ 32) :
    rt (serBytes bs) deBytes = some (some bs) := by
  refine rt_eq _ _ (uleb128Loop bs.length ++ bs) (some bs) ?_ ?_
  · have hs := serBytes_app bs mkSer rfl
    rw [Nat.mod_eq_of_lt hbs] at hs
    simpa using hs
  · have hp := deBytes_prefix (mkDe (uleb128Loop bs.length ++ bs)) rfl
      (by simp [mkDe]) bs hbs [] (by simp [mkDe])
    simpa [mkDe, List.length_append] using hp

theorem rt_string (str : List Nat) (hstr : str.length < 2 ^ 32) :
    rt (serString str) deString = some (some str) := by
  have h := rt_bytes str hstr
  simpa [serString, deString] using h

theorem rt_fixedBytes (fbs : List Nat) :
    rt (serFixedBytes fbs) (deFixedBytes fbs.length) = some (some fbs) := by
  refine rt_eq _ _ fbs (some fbs) (by simpa using serFixedBytes_app fbs mkSer rfl) ?_
  have hp := deFixedBytes_prefix (mkDe fbs) rfl (by simp [mkDe]) fbs [] (by simp [mkDe])
  simpa [mkDe] using hp

theorem rt_seq_u8 (seq : List Nat) (hseq : seq.length < 2 ^ 32)
    (hseqv : ∀ x ∈ seq, x < 2 ^ 8) :
    rt (serSequence serU8 seq) (deSequence deU8) = some (some seq) := by
  have hmapid : seq.map (fun x => x % 256) = seq := by
    conv_rhs => rw [← List.map_id seq]
    refine List.map_congr_left ?_
    intro x hx
    have := hseqv x hx
    simp
    omega
  refine rt_eq _ _ (uleb128Loop seq.length ++ seq) (some seq) ?_ ?_
  · have h1 : serUleb128 seq.length mkSer = ⟨uleb128Loop seq.length, none⟩ := by
      have hs := serUleb128_app seq.length mkSer rfl
      rw [Nat.mod_eq_of_lt hseq] at hs
      simpa using hs
    have h2 := serU8_foldl seq ⟨uleb128Loop seq.length, none⟩ rfl
    unfold serSequence
    rw [if_neg (by simp [mkSer]), h1, h2]
    simp [hmapid]
  · have hp := deSequenceU8_prefix (mkDe (uleb128Loop seq.length ++ seq)) rfl
      (by simp [mkDe]) seq hseq [] (by simp [mkDe])
    simpa [mkDe, List.length_append] using hp

theorem rt_opt_u8 (opt : Option Nat) (hopt : ∀ x ∈ opt, x < 2 ^ 8) :
    rt (serOption serU8 opt) (deOption deU8) = some opt := by
  match opt, hopt with
  | none, _ =>
    refine rt_eq _ _ [0] none ?_ ?_
    · show serOption serU8 none mkSer = _
      unfold serOption
      rw [if_neg (by simp [mkSer])]
      simpa using serU8_app 0 mkSer rfl
    · have hp := deOptionU8_none_prefix (mkDe [0]) rfl (by simp [mkDe]) []
        (by simp [mkDe])
      simpa [mkDe] using hp
  | some x, hopt =>
    have hx : x < 256 := by
      have := hopt x (by simp)
      omega
    refine rt_eq _ _ [1, x] (some x) ?_ ?_
    · show serOption serU8 (some x) mkSer = _
      unfold serOption
      rw [if_neg (by simp [mkSer])]
      have hs1 : serU8 1 mkSer = ⟨[1], none⟩ := by simpa using serU8_app 1 mkSer rfl
      rw [hs1]
      have hs2 := serU8_app x ⟨[1], none⟩ rfl
      rw [Nat.mod_eq_of_lt hx] at hs2
      simpa using hs2
    · have hp := deOptionU8_some_prefix (mkDe [1, x]) rfl (by simp [mkDe]) x []
        (by simp [mkDe])
      simpa [mkDe] using hp

/-!  Canonical-form lemmas: a byte string that fully decodes as a
fixed-width type is the unique encoding of the decoded value.  -/

theorem rt_inj {α : Type} (unmar : DeSt → DeSt × α) (mar1 mar2 : SerSt → SerSt)
    (v1 v2 : α) (h1 : rt mar1 unmar = some v1) (h2 : rt mar2 unmar = some v2)
    (heq : mar1 mkSer = mar2 mkSer) : v1 = v2 := by
  unfold rt at h1 h2
  rw [heq] at h1
  rw [h1] at h2
  exact Option.some.inj h2

theorem leBytes_leVal (bs : List Nat) (hv : ∀ x ∈ bs, x < 256) :
    leBytes bs.length (leVal bs) = bs := by
  induction bs with
  | nil => rfl
  | cons b tl ih =>
    have hb : b < 256 := hv b (by simp)
    rw [List.length_cons, leBytes_succ, leVal_cons]
    have h1 : (b + 256 * leVal tl) % 256 = b := by omega
    have h2 : (b + 256 * leVal tl) / 256 = leVal tl := by omega
    rw [h1, h2, ih (fun x hx => hv x (by simp [hx]))]

theorem checkRemaining_fail (n : Nat) (d : DeSt) (h : d.err = none)
    (hlen : d.offset + n > d.data.length) :
    checkRemaining n d = (d.setError Err.endOfInput, false) := by
  unfold checkRemaining
  rw [if_neg (by simp [h]), if_pos hlen]

theorem deserializeWith_some {α : Type} (unmar : DeSt → DeSt × α)
    (data : List Nat) (v : α) (h : deserializeWith unmar data = some v) :
    (unmar (mkDe data)).1.err = none ∧ (unmar (mkDe data)).1.remaining = 0 ∧
    (unmar (mkDe data)).2 = v := by
  unfold deserializeWith at h
  rcases hu : unmar (mkDe data) with ⟨d, val⟩
  rw [hu] at h
  simp only [] at h
  by_cases h1 : d.err ≠ none
  · rw [if_pos h1] at h
    exact absurd h (by simp)
  · rw [if_neg h1] at h
    push_neg at h1
    by_cases h2 : d.remaining > 0
    · rw [if_pos h2] at h
      exact absurd h (by simp)
    · rw [if_neg h2] at h
      show d.err = none ∧ d.remaining = 0 ∧ val = v
      exact ⟨h1, by omega, by simpa using h⟩

theorem deBool_eval0 (tl : List Nat) :
    deBool (mkDe (0 :: tl)) = (⟨0 :: tl, 1, none⟩, false) := by
  simp [deBool, checkRemaining, mkDe, List.getD]

theorem deBool_eval1 (tl : List Nat) :
    deBool (mkDe (1 :: tl)) = (⟨1 :: tl, 1, none⟩, true) := by
  simp [deBool, checkRemaining, mkDe, List.getD]

theorem deBool_evalbad (b : Nat) (tl : List Nat) (h0 : b ≠ 0) (h1 : b ≠ 1) :
    (deBool (mkDe (b :: tl))).1.err = some Err.invalidBool := by
  simp [deBool, checkRemaining, mkDe, List.getD, h0, h1, DeSt.setError]

theorem deserializeWith_bool_canonical (bs : List Nat) (v : Bool)
    (h : deserializeWith deBool bs = some v) : bs = [if v then 1 else 0] := by
  obtain ⟨herr, hrem, hval⟩ := deserializeWith_some deBool bs v h
  match bs with
  | [] =>
    exfalso
    unfold deBool at herr
    rw [checkRemaining_fail 1 (mkDe []) rfl (by simp [mkDe])] at herr
    simp [DeSt.setError, mkDe] at herr
  | b :: tl =>
    by_cases hb0 : b = 0
    · subst hb0
      rw [deBool_eval0 tl] at hrem hval
      have htl : tl = [] := by
        simp only [DeSt.remaining, List.length_cons] at hrem
        exact List.eq_nil_of_length_eq_zero (by omega)
      subst htl
      have hval2 : v = false := by simpa using hval.symm
      subst hval2
      rfl
    · by_cases hb1 : b = 1
      · subst hb1
        rw [deBool_eval1 tl] at hrem hval
        have htl : tl = [] := by
          simp only [DeSt.remaining, List.length_cons] at hrem
          exact List.eq_nil_of_length_eq_zero (by omega)
        subst htl
        have hval2 : v = true := by simpa using hval.symm
        subst hval2
        rfl
      · exfalso
        rw [deBool_evalbad b tl hb0 hb1] at herr
        exact Option.noConfusion herr

theorem deU8_eval (b : Nat) (tl : List Nat) :
    deU8 (mkDe (b :: tl)) = (⟨b :: tl, 1, none⟩, b) := by
  simp [deU8, checkRemaining, mkDe, List.getD]

theorem deserializeWith_u8_canonical (bs : List Nat) (v : Nat)
    (h : deserializeWith deU8 bs = some v) : bs = [v] := by
  obtain ⟨herr, hrem, hval⟩ := deserializeWith_some deU8 bs v h
  match bs with
  | [] =>
    exfalso
    unfold deU8 at herr
    rw [checkRemaining_fail 1 (mkDe []) rfl (by simp [mkDe])] at herr
    simp [DeSt.setError, mkDe] at herr
  | b :: tl =>
    rw [deU8_eval b tl] at hrem hval
    have htl : tl = [] := by
      simp only [DeSt.remaining, List.length_cons] at hrem
      exact List.eq_nil_of_length_eq_zero (by omega)
    subst htl
    have hval2 : v = b := by simpa using hval.symm
    subst hval2
    rfl

theorem deU16_eval (bs : List Nat) (hlen : 2 ≤ bs.length) :
    deU16 (mkDe bs) = (⟨bs, 2, none⟩, leVal (bs.take 2)) := by
  have hcr : checkRemaining 2 (mkDe bs) = (mkDe bs, true) := by
    unfold checkRemaining
    rw [if_neg (by simp [mkDe])]
    rw [if_neg (by simp [mkDe]; omega)]
  unfold deU16
  rw [hcr]
  simp [mkDe]

theorem deserializeWith_u16_canonical (bs : List Nat) (v : Nat)
    (hv : ∀ x ∈ bs, x < 256) (h : deserializeWith deU16 bs = some v) :
    bs = leBytes 2 v := by
  obtain ⟨herr, hrem, hval⟩ := deserializeWith_some deU16 bs v h
  by_cases hlen : 2 ≤ bs.length
  · rw [deU16_eval bs hlen] at hrem hval
    have hlen2 : bs.length = 2 := by
      simp only [DeSt.remaining] at hrem
      omega
    have htake : bs.take 2 = bs := List.take_of_length_le (by omega)
    have hval2 : leVal bs = v := by simpa [htake] using hval
    rw [← hval2, ← hlen2]
    exact (leBytes_leVal bs hv).symm
  · exfalso
    unfold deU16 at herr
    rw [checkRemaining_fail 2 (mkDe bs) rfl (by simp [mkDe]; omega)] at herr
    simp [DeSt.setError, mkDe] at herr

theorem deU32_eval (bs : List Nat) (hlen : 4 ≤ bs.length) :
    deU32 (mkDe bs) = (⟨bs, 4, none⟩, leVal (bs.take 4)) := by
  have hcr : checkRemaining 4 (mkDe bs) = (mkDe bs, true) := by
    unfold checkRemaining
    rw [if_neg (by simp [mkDe])]
    rw [if_neg (by simp [mkDe]; omega)]
  unfold deU32
  rw [hcr]
  simp [mkDe]

theorem deserializeWith_u32_canonical (bs : List Nat) (v : Nat)
    (hv : ∀ x ∈ bs, x < 256) (h : deserializeWith deU32 bs = some v) :
    bs = leBytes 4 v := by
  obtain ⟨herr, hrem, hval⟩ := deserializeWith_some deU32 bs v h
  by_cases hlen : 4 ≤ bs.length
  · rw [deU32_eval bs hlen] at hrem hval
    have hlen2 : bs.length = 4 := by
      simp only [DeSt.remaining] at hrem
      omega
    have htake : bs.take 4 = bs := List.take_of_length_le (by omega)
    have hval2 : leVal bs = v := by simpa [htake] using hval
    rw [← hval2, ← hlen2]
    exact (leBytes_leVal bs hv).symm
  · exfalso
    unfold deU32 at herr
    rw [checkRemaining_fail 4 (mkDe bs) rfl (by simp [mkDe]; omega)] at herr
    simp [DeSt.setError, mkDe] at herr

theorem deU64_eval (bs : List Nat) (hlen : 8 ≤ bs.length) :
    deU64 (mkDe bs) = (⟨bs, 8, none⟩, leVal (bs.take 8)) := by
  have hcr : checkRemaining 8 (mkDe bs) = (mkDe bs, true) := by
    unfold checkRemaining
    rw [if_neg (by simp [mkDe])]
    rw [if_neg (by simp [mkDe]; omega)]
  unfold deU64
  rw [hcr]
  simp [mkDe]

theorem deserializeWith_u64_canonical (bs : List Nat) (v : Nat)
    (hv : ∀ x ∈ bs, x < 256) (h : deserializeWith deU64 bs = some v) :
    bs = leBytes 8 v := by
  obtain ⟨herr, hrem, hval⟩ := deserializeWith_some deU64 bs v h
  by_cases hlen : 8 ≤ bs.length
  · rw [deU64_eval bs hlen] at hrem hval
    have hlen2 : bs.length = 8 := by
      simp only [DeSt.remaining] at hrem
      omega
    have htake : bs.take 8 = bs := List.take_of_length_le (by omega)
    have hval2 : leVal bs = v := by simpa [htake] using hval
    rw [← hval2, ← hlen2]
    exact (leBytes_leVal bs hv).symm
  · exfalso
    unfold deU64 at herr
    rw [checkRemaining_fail 8 (mkDe bs) rfl (by simp [mkDe]; omega)] at herr
    simp [DeSt.setError, mkDe] at herr

theorem deU128_eval (bs : List Nat) (hlen : 16 ≤ bs.length) :
    deU128 (mkDe bs) = (⟨bs, 16, none⟩, some ((beVal (bs.take 16).reverse : Nat) : Int)) := by
  have hcr : checkRemaining 16 (mkDe bs) = (mkDe bs, true) := by
    unfold checkRemaining
    rw [if_neg (by simp [mkDe])]
    rw [if_neg (by simp [mkDe]; omega)]
  unfold deU128
  rw [hcr]
  simp [mkDe]

theorem deserializeWith_u128_canonical (bs : List Nat) (w : Int)
    (hv : ∀ x ∈ bs, x < 256) (h : deserializeWith deU128 bs = some (some w)) :
    bs = leBytes 16 w.toNat := by
  obtain ⟨herr, hrem, hval⟩ := deserializeWith_some deU128 bs (some w) h
  by_cases hlen : 16 ≤ bs.length
  · rw [deU128_eval bs hlen] at hrem hval
    have hlen2 : bs.length = 16 := by
      simp only [DeSt.remaining] at hrem
      omega
    have htake : bs.take 16 = bs := List.take_of_length_le (by omega)
    have hval2 : ((leVal bs : Nat) : Int) = w := by
      have h2 : some ((beVal (bs.take 16).reverse : Nat) : Int) = some w := hval
      rw [htake, beVal_reverse] at h2
      exact Option.some.inj h2
    have hw : w.toNat = leVal bs := by omega
    rw [hw, ← hlen2]
    exact (leBytes_leVal bs hv).symm
  · exfalso
    unfold deU128 at herr
    rw [checkRemaining_fail 16 (mkDe bs) rfl (by simp [mkDe]; omega)] at herr
    simp [DeSt.setError, mkDe] at herr

theorem deU256_eval (bs : List Nat) (hlen : 32 ≤ bs.length) :
    deU256 (mkDe bs) = (⟨bs, 32, none⟩, some ((beVal (bs.take 32).reverse : Nat) : Int)) := by
  have hcr : checkRemaining 32 (mkDe bs) = (mkDe bs, true) := by
    unfold checkRemaining
    rw [if_neg (by simp [mkDe])]
    rw [if_neg (by simp [mkDe]; omega)]
  unfold deU256
  rw [hcr]
  simp [mkDe]

theorem deserializeWith_u256_canonical (bs : List Nat) (w : Int)
    (hv : ∀ x ∈ bs, x < 256) (h : deserializeWith deU256 bs = some (some w)) :
    bs = leBytes 32 w.toNat := by
  obtain ⟨herr, hrem, hval⟩ := deserializeWith_some deU256 bs (some w) h
  by_cases hlen : 32 ≤ bs.length
  · rw [deU256_eval bs hlen] at hrem hval
    have hlen2 : bs.length = 32 := by
      simp only [DeSt.remaining] at hrem
      omega
    have htake : bs.take 32 = bs := List.take_of_length_le (by omega)
    have hval2 : ((leVal bs : Nat) : Int) = w := by
      have h2 : some ((beVal (bs.take 32).reverse : Nat) : Int) = some w := hval
      rw [htake, beVal_reverse] at h2
      exact Option.some.inj h2
    have hw : w.toNat = leVal bs := by omega
    rw [hw, ← hlen2]
    exact (leBytes_leVal bs hv).symm
  · exfalso
    unfold deU256 at herr
    rw [checkRemaining_fail 32 (mkDe bs) rfl (by simp [mkDe]; omega)] at herr
    simp [DeSt.setError, mkDe] at herr

theorem deserializeWith_fixed_canonical (n : Nat) (bs : List Nat)
    (r : Option (List Nat)) (h : deserializeWith (deFixedBytes n) bs = some r) :
    r = some bs := by
  obtain ⟨herr, hrem, hval⟩ := deserializeWith_some (deFixedBytes n) bs r h
  by_cases hlen : n ≤ bs.length
  · have hcr : checkRemaining n (mkDe bs) = (mkDe bs, true) := by
      unfold checkRemaining
      rw [if_neg (by simp [mkDe])]
      rw [if_neg (by simp [mkDe]; omega)]
    unfold deFixedBytes at hrem hval
    rw [hcr] at hrem hval
    simp only [mkDe, DeSt.remaining] at hrem hval
    have hlen2 : bs.length = n := by omega
    have htake : bs.take n = bs := List.take_of_length_le (by omega)
    rw [← hval]
    simp [htake]
  · exfalso
    unfold deFixedBytes at herr
    rw [checkRemaining_fail n (mkDe bs) rfl (by simp [mkDe]; omega)] at herr
    simp [DeSt.setError, mkDe] at herr

/-- C3: Wire-format fixtures: the serializer produces exactly the
reference byte sequences — `U16(0x1234)` writes `[0x34, 0x12]`;
`U64(0x123456789abcdef0)` writes `[0xf0, 0xde, 0xbc, 0x9a, 0x78, 0x56,
0x34, 0x12]`; `Uleb128` writes `[0x00]` for 0, `[0x7f]` for 127,
`[0x80, 0x01]` for 128, and `[0x80, 0x80, 0x01]` for 16384. -/
theorem bcs_wire_fixtures :
    (serU16 0x1234 mkSer).buf = [0x34, 0x12] ∧
    (serU64 0x123456789abcdef0 mkSer).buf =
      [0xf0, 0xde, 0xbc, 0x9a, 0x78, 0x56, 0x34, 0x12] ∧
    (serUleb128 0 mkSer).buf = [0x00] ∧
    (serUleb128 127 mkSer).buf = [0x7f] ∧
    (serUleb128 128 mkSer).buf = [0x80, 0x01] ∧
    (serUleb128 16384 mkSer).buf = [0x80, 0x80, 0x01] := by
  refine ⟨?_, ?_, ?_, ?_, ?_, ?_⟩ <;> decide

/-- C1: Round-trip law: for every valid value of a supported type
(booleans, u8/u16/u32/u64, in-range u128/u256 big integers,
uleb128-encoded uint32 values, length-prefixed bytes and UTF-8 strings,
fixed-size byte arrays, options both present and absent, and sequences),
deserializing the bytes produced by serializing that value with the
matching read operation yields the original value (consuming all of
them). -/
theorem bcs_roundtrip
    (b : Bool)
    (v8 : Nat) (h8 : v8 < 2 ^ 8)
    (v16 : Nat) (h16 : v16 < 2 ^ 16)
    (v32 : Nat) (h32 : v32 < 2 ^ 32)
    (v64 : Nat) (h64 : v64 < 2 ^ 64)
    (v128 : Int) (h128a : 0 ≤ v128) (h128b : v128 < 2 ^ 128)
    (v256 : Int) (h256a : 0 ≤ v256) (h256b : v256 < 2 ^ 256)
    (vu : Nat) (hu : vu < 2 ^ 32)
    (bs : List Nat) (hbs : bs.length < 2 ^ 32)
    (str : List Nat) (hstr : str.length < 2 ^ 32)
    (fbs : List Nat)
    (seq : List Nat) (hseq : seq.length < 2 ^ 32) (hseqv : ∀ x ∈ seq, x < 2 ^ 8)
    (opt : Option Nat) (hopt : ∀ x ∈ opt, x < 2 ^ 8) :
    rt (serBool b) deBool = some b ∧
    rt (serU8 v8) deU8 = some v8 ∧
    rt (serU16 v16) deU16 = some v16 ∧
    rt (serU32 v32) deU32 = some v32 ∧
    rt (serU64 v64) deU64 = some v64 ∧
    rt (serU128 v128) deU128 = some (some v128) ∧
    rt (serU256 v256) deU256 = some (some v256) ∧
    rt (serUleb128 vu) deUleb128 = some vu ∧
    rt (serBytes bs) deBytes = some (some bs) ∧
    rt (serString str) deString = some (some str) ∧
    rt (serFixedBytes fbs) (deFixedBytes fbs.length) = some (some fbs) ∧
    rt (serSequence serU8 seq) (deSequence deU8) = some (some seq) ∧
    rt (serOption serU8 opt) (deOption deU8) = some opt :=
  ⟨rt_bool b, rt_u8 v8 h8, rt_u16 v16 h16, rt_u32 v32 h32, rt_u64 v64 h64,
   rt_u128 v128 h128a h128b, rt_u256 v256 h256a h256b, rt_uleb vu hu,
   rt_bytes bs hbs, rt_string str hstr, rt_fixedBytes fbs,
   rt_seq_u8 seq hseq hseqv, rt_opt_u8 opt hopt⟩

theorem bcs_roundtrip_witness :
    rt (serBool true) deBool = some true ∧
    rt (serU8 171) deU8 = some 171 ∧
    rt (serU16 0x1234) deU16 = some 0x1234 ∧
    rt (serU32 0x12345678) deU32 = some 0x12345678 ∧
    rt (serU64 0x123456789abcdef0) deU64 = some 0x123456789abcdef0 ∧
    rt (serU128 340282366920938463463374607431768211455) deU128 =
      some (some 340282366920938463463374607431768211455) ∧
    rt (serU256 115792089237316195423570985008687907853269984665640564039457584007913129639935)
      deU256 =
      some (some 115792089237316195423570985008687907853269984665640564039457584007913129639935) ∧
    rt (serUleb128 16384) deUleb128 = some 16384 ∧
    rt (serBytes [1, 2, 3]) deBytes = some (some [1, 2, 3]) ∧
    rt (serString [104, 101, 108, 108, 111]) deString =
      some (some [104, 101, 108, 108, 111]) ∧
    rt (serFixedBytes [9, 8, 7, 6]) (deFixedBytes [9, 8, 7, 6].length) =
      some (some [9, 8, 7, 6]) ∧
    rt (serSequence serU8 [7, 8, 9]) (deSequence deU8) = some (some [7, 8, 9]) ∧
    rt (serOption serU8 (some 42)) (deOption deU8) = some (some 42) :=
  bcs_roundtrip true 171 (by decide) 0x1234 (by decide) 0x12345678 (by decide)
    0x123456789abcdef0 (by decide)
    340282366920938463463374607431768211455 (by decide) (by decide)
    115792089237316195423570985008687907853269984665640564039457584007913129639935
    (by decide) (by decide)
    16384 (by decide) [1, 2, 3] (by decide) [104, 101, 108, 108, 111] (by decide)
    [9, 8, 7, 6] [7, 8, 9] (by decide) (by decide) (some 42) (by decide)

/-- C10: Serializer.Uleb128 is total and infallible: for every uint32
input it terminates (it is a total function), appends between 1 and 5
bytes to the buffer, and never latches an error. -/
theorem uleb128_encoder_total (v : Nat) (hv : v < 2 ^ 32) (s : SerSt)
    (hs : s.err = none) :
    (serUleb128 v s).err = none ∧
    (serUleb128 v s).buf = s.buf ++ uleb128Loop v ∧
    1 ≤ (uleb128Loop v).length ∧ (uleb128Loop v).length ≤ 5 := by
  have happ := serUleb128_app v s hs
  rw [Nat.mod_eq_of_lt hv] at happ
  refine ⟨by rw [happ], by rw [happ], uleb128Loop_length_pos v, ?_⟩
  have h5 := uleb128Loop_length_le 4 v
    (by
      calc v < 2 ^ 32 := hv
      _ ≤ 128 ^ (4 + 1) := by norm_num)
  simpa using h5

theorem uleb128_encoder_total_witness :
    (serUleb128 4294967295 mkSer).err = none ∧
    (serUleb128 4294967295 mkSer).buf = mkSer.buf ++ uleb128Loop 4294967295 ∧
    1 ≤ (uleb128Loop 4294967295).length ∧ (uleb128Loop 4294967295).length ≤ 5 :=
  uleb128_encoder_total 4294967295 (by decide) mkSer rfl

/-- C6: Serializer.U128 (resp. U256) applied to a negative big integer,
or to one whose big-endian magnitude exceeds 16 (resp. 32) bytes, latches
a serialization error rather than panicking (it is a total function
leaving the buffer unchanged), and applied to any in-range non-negative
big integer writes exactly 16 (resp. 32) bytes in little-endian order,
zero-padded on the high end. -/
theorem u128_u256_range_checked (v : Int) (s : SerSt) (hs : s.err = none) :
    (v < 0 →
      serU128 v s = ⟨s.buf, some Err.u128Negative⟩ ∧
      serU256 v s = ⟨s.buf, some Err.u256Negative⟩) ∧
    (2 ^ 128 ≤ v → serU128 v s = ⟨s.buf, some Err.u128TooLarge⟩) ∧
    (2 ^ 256 ≤ v → serU256 v s = ⟨s.buf, some Err.u256TooLarge⟩) ∧
    (0 ≤ v → v < 2 ^ 128 →
      serU128 v s = ⟨s.buf ++ leBytes 16 v.toNat, none⟩ ∧
      (leBytes 16 v.toNat).length = 16 ∧
      ∀ i < 16, (leBytes 16 v.toNat).getD i 0 = v.toNat / 256 ^ i % 256) ∧
    (0 ≤ v → v < 2 ^ 256 →
      serU256 v s = ⟨s.buf ++ leBytes 32 v.toNat, none⟩ ∧
      (leBytes 32 v.toNat).length = 32) := by
  obtain ⟨buf, err⟩ := s
  cases hs
  refine ⟨?_, ?_, ?_, ?_, ?_⟩
  · intro hneg
    constructor
    · unfold serU128
      rw [if_neg (by simp), if_pos hneg]
      simp [SerSt.setError]
    · unfold serU256
      rw [if_neg (by simp), if_pos hneg]
      simp [SerSt.setError]
  · intro hbig
    have h0 : (0 : Int) ≤ v := le_trans (by positivity) hbig
    have hlen : (natBytesBE v.toNat).length > 16 := by
      by_contra hc
      have h1 := lt_of_natBytesBE_length_le 16 v.toNat (by omega)
      have h2 : (v.toNat : Int) = v := Int.toNat_of_nonneg h0
      have h3 : ((256 ^ 16 : Nat) : Int) = 2 ^ 128 := by norm_num
      omega
    unfold serU128
    rw [if_neg (by simp), if_neg (by omega), if_pos hlen]
    simp [SerSt.setError]
  · intro hbig
    have h0 : (0 : Int) ≤ v := le_trans (by positivity) hbig
    have hlen : (natBytesBE v.toNat).length > 32 := by
      by_contra hc
      have h1 := lt_of_natBytesBE_length_le 32 v.toNat (by omega)
      have h2 : (v.toNat : Int) = v := Int.toNat_of_nonneg h0
      have h3 : ((256 ^ 32 : Nat) : Int) = 2 ^ 256 := by norm_num
      omega
    unfold serU256
    rw [if_neg (by simp), if_neg (by omega), if_pos hlen]
    simp [SerSt.setError]
  · intro h0 hlt
    refine ⟨serU128_app v h0 hlt _ rfl, leBytes_length 16 v.toNat, ?_⟩
    intro i hi
    unfold leBytes
    rw [List.getD_eq_getElem?_getD]
    simp [List.getElem?_range hi]
  · intro h0 hlt
    exact ⟨serU256_app v h0 hlt _ rfl, leBytes_length 32 v.toNat⟩

theorem u128_u256_range_checked_witness :
    (serU128 (-1) mkSer = ⟨[], some Err.u128Negative⟩ ∧
      serU256 (-1) mkSer = ⟨[], some Err.u256Negative⟩) ∧
    serU128 (2 ^ 128) mkSer = ⟨[], some Err.u128TooLarge⟩ ∧
    serU256 (2 ^ 256) mkSer = ⟨[], some Err.u256TooLarge⟩ ∧
    serU128 5 mkSer = ⟨leBytes 16 5, none⟩ :=
  ⟨(u128_u256_range_checked (-1) mkSer rfl).1 (by decide),
   (u128_u256_range_checked (2 ^ 128) mkSer rfl).2.1 (by decide),
   (u128_u256_range_checked (2 ^ 256) mkSer rfl).2.2.1 (by decide),
   by
     have h := ((u128_u256_range_checked 5 mkSer rfl).2.2.2.1 (by decide) (by decide)).1
     simpa using h⟩

/-- C4 counterexample: the byte string `[0xff, 0xff, 0xff, 0xff, 0x7f]`
denotes the value `2 ^ 35 - 1`, which is outside the 32-bit range, yet
`Deserializer.Uleb128` decodes it without error (the fifth byte's high
payload bits wrap modulo `2 ^ 32`), refuting the claim that no byte
string denoting a value outside the 32-bit range decodes without
error. -/
theorem uleb128_decode_wraps_beyond_u32 :
    (deUleb128 (mkDe [0xff, 0xff, 0xff, 0xff, 0x7f])).1.err = none ∧
    (deUleb128 (mkDe [0xff, 0xff, 0xff, 0xff, 0x7f])).2 = 0xffffffff ∧
    ulebDenote [0xff, 0xff, 0xff, 0xff, 0x7f] = 34359738367 ∧
    2 ^ 32 ≤ ulebDenote [0xff, 0xff, 0xff, 0xff, 0x7f] := by
  refine ⟨?_, ?_, ?_, ?_⟩ <;> decide

/-- C4 (amended): Deserializer.Uleb128 latches the overflow error exactly
when the first five unread bytes exist and all carry the continuation
bit (i.e. a shift beyond 28 bits would be needed); the returned value is
always within the 32-bit register range, but a byte string whose fifth
byte has no continuation bit may denote a value outside the 32-bit range
and still decode without error, wrapping modulo `2 ^ 32`. -/
theorem uleb128_overflow_latch_amended (bs : List Nat)
    (hbs : ∀ x ∈ bs, x < 256) :
    ((deUleb128 (mkDe bs)).1.err = some Err.uleb128Overflow ↔
      (5 ≤ bs.length ∧ ∀ i, i < 5 → 128 ≤ bs.getD i 0)) ∧
    (deUleb128 (mkDe bs)).2 < 2 ^ 32 ∧
    (deUleb128 (mkDe [0xff, 0xff, 0xff, 0xff, 0x7f])).1.err = none ∧
    (deUleb128 (mkDe [0xff, 0xff, 0xff, 0xff, 0x7f])).2 =
      ulebDenote [0xff, 0xff, 0xff, 0xff, 0x7f] % 2 ^ 32 := by
  refine ⟨?_, ?_, by decide, by decide⟩
  · have h := deUlebLoop_overflow 5 (mkDe bs) 0 0 rfl (by norm_num) (by norm_num)
      (by norm_num) hbs
    unfold deUleb128
    rw [if_neg (by simp [mkDe])]
    simpa [mkDe] using h
  · unfold deUleb128
    rw [if_neg (by simp [mkDe])]
    exact deUlebLoop_result_lt 5 (mkDe bs) 0 0 (by norm_num)

theorem uleb128_overflow_latch_amended_witness :
    (deUleb128 (mkDe [0xff, 0xff, 0xff, 0xff, 0xff])).1.err =
      some Err.uleb128Overflow ∧
    (deUleb128 (mkDe [0x80, 0x01])).2 < 2 ^ 32 :=
  ⟨(uleb128_overflow_latch_amended [0xff, 0xff, 0xff, 0xff, 0xff]
      (by decide)).1.mpr (by decide),
   (uleb128_overflow_latch_amended [0x80, 0x01] (by decide)).2.1⟩

/-- C5: Errors are sticky: once an error is latched on a Serializer or
Deserializer, every subsequent write/read operation on that instance is a
no-op that returns the type's zero/default value, leaves the output
buffer / read cursor unchanged, and leaves the first latched error in
place — a later `SetError` never overwrites or clears it. -/
theorem error_latching_sticky {α : Type}
    (e e2 : Err) (s : SerSt) (hs : s.err = some e)
    (d : DeSt) (hd : d.err = some e)
    (b : Bool) (v : Nat) (vi : Int) (bs : List Nat) (n : Nat)
    (mar : α → SerSt → SerSt) (items : List α) (opt : Option α)
    (unmar : DeSt → DeSt × α) :
    serBool b s = s ∧ serU8 v s = s ∧ serU16 v s = s ∧ serU32 v s = s ∧
    serU64 v s = s ∧ serU128 vi s = s ∧ serU256 vi s = s ∧
    serUleb128 v s = s ∧ serBytes bs s = s ∧ serFixedBytes bs s = s ∧
    serString bs s = s ∧ serSequence mar items s = s ∧ serOption mar opt s = s ∧
    s.setError e2 = s ∧ s.toBytes = none ∧
    deBool d = (d, false) ∧ deU8 d = (d, 0) ∧ deU16 d = (d, 0) ∧
    deU32 d = (d, 0) ∧ deU64 d = (d, 0) ∧ deU128 d = (d, none) ∧
    deU256 d = (d, none) ∧ deUleb128 d = (d, 0) ∧ deBytes d = (d, none) ∧
    deFixedBytes n d = (d, none) ∧ deString d = (d, none) ∧
    deSequence unmar d = (d, none) ∧ deOption unmar d = (d, none) ∧
    d.setError e2 = d := by
  refine ⟨?_, ?_, ?_, ?_, ?_, ?_, ?_, ?_, ?_, ?_, ?_, ?_, ?_, ?_, ?_, ?_, ?_,
    ?_, ?_, ?_, ?_, ?_, ?_, ?_, ?_, ?_, ?_, ?_, ?_⟩ <;>
    simp [serBool, serU8, serU16, serU32, serU64, serU128, serU256, serUleb128,
      serBytes, serFixedBytes, serString, serSequence, serOption,
      SerSt.setError, SerSt.toBytes, deBool, deU8, deU16, deU32, deU64, deU128,
      deU256, deUleb128, deBytes, deFixedBytes, deString, deSequence, deOption,
      DeSt.setError, checkRemaining, hs, hd]

theorem error_latching_sticky_witness :
    serBool true ⟨[], some Err.endOfInput⟩ = ⟨[], some Err.endOfInput⟩ ∧
    deBool ⟨[0], 0, some Err.endOfInput⟩ = (⟨[0], 0, some Err.endOfInput⟩, false) := by
  obtain ⟨h1, _, _, _, _, _, _, _, _, _, _, _, _, _, _, h16, _⟩ :=
    error_latching_sticky (α := Nat) Err.endOfInput Err.invalidBool
      ⟨[], some Err.endOfInput⟩ rfl ⟨[0], 0, some Err.endOfInput⟩ rfl
      true 7 5 [3] 2 (fun x st => serU8 x st) [1] none deU8
  exact ⟨h1, h16⟩

/-- C2 counterexample: the claim's "vice versa" direction fails — the
two distinct byte strings `[0x00]` and `[0x80, 0x00]` both deserialize
without error, as the same logical type (a uleb128-encoded length or
discriminant), to the same value 0, because the decoder accepts
non-canonical ULEB128 encodings. -/
theorem uleb128_decode_not_injective :
    deserializeWith deUleb128 [0x00] = some 0 ∧
    deserializeWith deUleb128 [0x80, 0x00] = some 0 ∧
    ([0x00] : List Nat) ≠ [0x80, 0x00] := by
  refine ⟨?_, ?_, ?_⟩ <;> decide

/-- C2 (amended): serialization is injective for every supported type
(two distinct values never produce the same bytes), and deserialization
of the fixed-width encodings (bool, u8/u16/u32/u64, u128/u256,
fixed-size byte arrays) is likewise injective; but for uleb128-prefixed
encodings the converse fails: the decoder accepts non-canonical forms,
so two distinct byte strings can decode without error to the same
value. -/
theorem bcs_canonical_uniqueness_amended :
    (∀ b1 b2 : Bool, serBool b1 mkSer = serBool b2 mkSer → b1 = b2) ∧
    (∀ v1 v2 : Nat, v1 < 2 ^ 8 → v2 < 2 ^ 8 →
      serU8 v1 mkSer = serU8 v2 mkSer → v1 = v2) ∧
    (∀ v1 v2 : Nat, v1 < 2 ^ 16 → v2 < 2 ^ 16 →
      serU16 v1 mkSer = serU16 v2 mkSer → v1 = v2) ∧
    (∀ v1 v2 : Nat, v1 < 2 ^ 32 → v2 < 2 ^ 32 →
      serU32 v1 mkSer = serU32 v2 mkSer → v1 = v2) ∧
    (∀ v1 v2 : Nat, v1 < 2 ^ 64 → v2 < 2 ^ 64 →
      serU64 v1 mkSer = serU64 v2 mkSer → v1 = v2) ∧
    (∀ v1 v2 : Int, 0 ≤ v1 → v1 < 2 ^ 128 → 0 ≤ v2 → v2 < 2 ^ 128 →
      serU128 v1 mkSer = serU128 v2 mkSer → v1 = v2) ∧
    (∀ v1 v2 : Int, 0 ≤ v1 → v1 < 2 ^ 256 → 0 ≤ v2 → v2 < 2 ^ 256 →
      serU256 v1 mkSer = serU256 v2 mkSer → v1 = v2) ∧
    (∀ v1 v2 : Nat, v1 < 2 ^ 32 → v2 < 2 ^ 32 →
      serUleb128 v1 mkSer = serUleb128 v2 mkSer → v1 = v2) ∧
    (∀ bs1 bs2 : List Nat, bs1.length < 2 ^ 32 → bs2.length < 2 ^ 32 →
      serBytes bs1 mkSer = serBytes bs2 mkSer → bs1 = bs2) ∧
    (∀ s1 s2 : List Nat, s1.length < 2 ^ 32 → s2.length < 2 ^ 32 →
      (∀ x ∈ s1, x < 2 ^ 8) → (∀ x ∈ s2, x < 2 ^ 8) →
      serSequence serU8 s1 mkSer = serSequence serU8 s2 mkSer → s1 = s2) ∧
    (∀ o1 o2 : Option Nat, (∀ x ∈ o1, x < 2 ^ 8) → (∀ x ∈ o2, x < 2 ^ 8) →
      serOption serU8 o1 mkSer = serOption serU8 o2 mkSer → o1 = o2) ∧
    (∀ bs1 bs2 : List Nat, ∀ v : Bool,
      deserializeWith deBool bs1 = some v → deserializeWith deBool bs2 = some v →
      bs1 = bs2) ∧
    (∀ bs1 bs2 : List Nat, ∀ v : Nat,
      deserializeWith deU8 bs1 = some v → deserializeWith deU8 bs2 = some v →
      bs1 = bs2) ∧
    (∀ bs1 bs2 : List Nat, ∀ v : Nat, (∀ x ∈ bs1, x < 256) → (∀ x ∈ bs2, x < 256) →
      deserializeWith deU16 bs1 = some v → deserializeWith deU16 bs2 = some v →
      bs1 = bs2) ∧
    (∀ bs1 bs2 : List Nat, ∀ v : Nat, (∀ x ∈ bs1, x < 256) → (∀ x ∈ bs2, x < 256) →
      deserializeWith deU32 bs1 = some v → deserializeWith deU32 bs2 = some v →
      bs1 = bs2) ∧
    (∀ bs1 bs2 : List Nat, ∀ v : Nat, (∀ x ∈ bs1, x < 256) → (∀ x ∈ bs2, x < 256) →
      deserializeWith deU64 bs1 = some v → deserializeWith deU64 bs2 = some v →
      bs1 = bs2) ∧
    (∀ bs1 bs2 : List Nat, ∀ w : Int, (∀ x ∈ bs1, x < 256) → (∀ x ∈ bs2, x < 256) →
      deserializeWith deU128 bs1 = some (some w) →
      deserializeWith deU128 bs2 = some (some w) → bs1 = bs2) ∧
    (∀ bs1 bs2 : List Nat, ∀ w : Int, (∀ x ∈ bs1, x < 256) → (∀ x ∈ bs2, x < 256) →
      deserializeWith deU256 bs1 = some (some w) →
      deserializeWith deU256 bs2 = some (some w) → bs1 = bs2) ∧
    (∀ n : Nat, ∀ bs1 bs2 out : List Nat,
      deserializeWith (deFixedBytes n) bs1 = some (some out) →
      deserializeWith (deFixedBytes n) bs2 = some (some out) → bs1 = bs2) ∧
    (deserializeWith deUleb128 [0x00] = some 0 ∧
      deserializeWith deUleb128 [0x80, 0x00] = some 0 ∧
      ([0x00] : List Nat) ≠ [0x80, 0x00]) := by
  refine ⟨?_, ?_, ?_, ?_, ?_, ?_, ?_, ?_, ?_, ?_, ?_, ?_, ?_, ?_, ?_, ?_, ?_,
    ?_, ?_, by decide, by decide, by decide⟩
  · intro b1 b2 heq
    exact rt_inj deBool _ _ b1 b2 (rt_bool b1) (rt_bool b2) heq
  · intro v1 v2 h1 h2 heq
    exact rt_inj deU8 _ _ v1 v2 (rt_u8 v1 h1) (rt_u8 v2 h2) heq
  · intro v1 v2 h1 h2 heq
    exact rt_inj deU16 _ _ v1 v2 (rt_u16 v1 h1) (rt_u16 v2 h2) heq
  · intro v1 v2 h1 h2 heq
    exact rt_inj deU32 _ _ v1 v2 (rt_u32 v1 h1) (rt_u32 v2 h2) heq
  · intro v1 v2 h1 h2 heq
    exact rt_inj deU64 _ _ v1 v2 (rt_u64 v1 h1) (rt_u64 v2 h2) heq
  · intro v1 v2 h1a h1b h2a h2b heq
    have h := rt_inj deU128 _ _ (some v1) (some v2)
      (rt_u128 v1 h1a h1b) (rt_u128 v2 h2a h2b) heq
    exact Option.some.inj h
  · intro v1 v2 h1a h1b h2a h2b heq
    have h := rt_inj deU256 _ _ (some v1) (some v2)
      (rt_u256 v1 h1a h1b) (rt_u256 v2 h2a h2b) heq
    exact Option.some.inj h
  · intro v1 v2 h1 h2 heq
    exact rt_inj deUleb128 _ _ v1 v2 (rt_uleb v1 h1) (rt_uleb v2 h2) heq
  · intro bs1 bs2 h1 h2 heq
    have h := rt_inj deBytes _ _ (some bs1) (some bs2)
      (rt_bytes bs1 h1) (rt_bytes bs2 h2) heq
    exact Option.some.inj h
  · intro s1 s2 h1 h2 hv1 hv2 heq
    have h := rt_inj (deSequence deU8) _ _ (some s1) (some s2)
      (rt_seq_u8 s1 h1 hv1) (rt_seq_u8 s2 h2 hv2) heq
    exact Option.some.inj h
  · intro o1 o2 hv1 hv2 heq
    exact rt_inj (deOption deU8) _ _ o1 o2 (rt_opt_u8 o1 hv1) (rt_opt_u8 o2 hv2) heq
  · intro bs1 bs2 v h1 h2
    rw [deserializeWith_bool_canonical bs1 v h1, deserializeWith_bool_canonical bs2 v h2]
  · intro bs1 bs2 v h1 h2
    rw [deserializeWith_u8_canonical bs1 v h1, deserializeWith_u8_canonical bs2 v h2]
  · intro bs1 bs2 v hv1 hv2 h1 h2
    rw [deserializeWith_u16_canonical bs1 v hv1 h1,
      deserializeWith_u16_canonical bs2 v hv2 h2]
  · intro bs1 bs2 v hv1 hv2 h1 h2
    rw [deserializeWith_u32_canonical bs1 v hv1 h1,
      deserializeWith_u32_canonical bs2 v hv2 h2]
  · intro bs1 bs2 v hv1 hv2 h1 h2
    rw [deserializeWith_u64_canonical bs1 v hv1 h1,
      deserializeWith_u64_canonical bs2 v hv2 h2]
  · intro bs1 bs2 w hv1 hv2 h1 h2
    rw [deserializeWith_u128_canonical bs1 w hv1 h1,
      deserializeWith_u128_canonical bs2 w hv2 h2]
  · intro bs1 bs2 w hv1 hv2 h1 h2
    rw [deserializeWith_u256_canonical bs1 w hv1 h1,
      deserializeWith_u256_canonical bs2 w hv2 h2]
  · intro n bs1 bs2 out h1 h2
    have e1 := deserializeWith_fixed_canonical n bs1 (some out) h1
    have e2 := deserializeWith_fixed_canonical n bs2 (some out) h2
    have := e1.symm.trans e2
    exact Option.some.inj this

theorem bcs_canonical_uniqueness_amended_witness :
    (0x1234 : Nat) = 0x1234 ∧ ([0x34, 0x12] : List Nat) = [0x34, 0x12] :=
  ⟨bcs_canonical_uniqueness_amended.2.2.1 0x1234 0x1234 (by decide) (by decide) rfl,
   bcs_canonical_uniqueness_amended.2.2.2.2.2.2.2.2.2.2.2.2.2.1
     [0x34, 0x12] [0x34, 0x12] 0x1234 (by decide) (by decide) (by decide) (by decide)⟩

/-!  TypeTag print/parse round-trip: helper lemmas.  -/

theorem cons_ne_of_ne {c d : Char} (h : c ≠ d) (l r : List Char) : ¬(c :: l = d :: r) := by
  intro he
  injection he with h1 _
  exact h h1

theorem identChar_facts {c : Char} (h : identChar c = true) :
    c ≠ ':' ∧ c ≠ '<' ∧ c ≠ '>' ∧ c ≠ ',' := by
  refine ⟨?_, ?_, ?_, ?_⟩ <;> rintro rfl <;> revert h <;> decide

theorem identChar_not_space {c : Char} (h : identChar c = true) : isSpaceGo c = false := by
  by_contra hs
  have hs' : isSpaceGo c = true := by
    cases hcc : isSpaceGo c
    · exact absurd hcc hs
    · rfl
  simp only [isSpaceGo, Char.isWhitespace, Bool.or_eq_true, decide_eq_true_eq] at hs'
  rcases hs' with ((rfl | rfl) | rfl) | rfl <;> revert h <;> decide

theorem trimSpace_eq_self (s : List Char)
    (h1 : ∀ c, s.head? = some c → isSpaceGo c = false)
    (h2 : ∀ c, s.getLast? = some c → isSpaceGo c = false) :
    trimSpace s = s := by
  match s with
  | [] => rfl
  | c :: r =>
    have hc : isSpaceGo c = false := h1 c rfl
    unfold trimSpace
    rw [List.dropWhile_cons]
    simp only [hc, Bool.false_eq_true, if_false]
    match hrev : (c :: r).reverse with
    | [] => exact absurd hrev (by simp)
    | d :: r' =>
      have hd : (c :: r).getLast? = some d := by
        rw [← List.head?_reverse, hrev]
        rfl
      have hds : isSpaceGo d = false := h2 d hd
      rw [List.dropWhile_cons]
      simp only [hds, Bool.false_eq_true, if_false]
      rw [← hrev, List.reverse_reverse]

theorem trimSpace_cons_space (s : List Char) : trimSpace (' ' :: s) = trimSpace s := by
  unfold trimSpace
  rw [List.dropWhile_cons]
  simp only [show isSpaceGo ' ' = true by decide, if_true]

theorem hexDigitChar_ident : ∀ n, n < 16 → identChar (hexDigitChar n) = true := by decide

theorem hexDigitChar_ne_X : ∀ n, n < 16 → hexDigitChar n ≠ 'X' := by decide

theorem hexDigitChar_eq_zero : ∀ n, n < 16 → hexDigitChar n = '0' → n = 0 := by decide

theorem fromHexChar_hexDigitChar : ∀ n, n < 16 → fromHexChar (hexDigitChar n) = some n := by
  decide

theorem hexEncodeChars_mem {bs : List Nat} (hb : bs.all (· < 256) = true) {c : Char}
    (hc : c ∈ hexEncodeChars bs) : ∃ n, n < 16 ∧ c = hexDigitChar n := by
  induction bs with
  | nil => simp [hexEncodeChars] at hc
  | cons b r ih =>
    simp only [List.all_cons, Bool.and_eq_true, decide_eq_true_eq] at hb
    simp only [hexEncodeChars, List.mem_cons] at hc
    rcases hc with rfl | rfl | hc
    · exact ⟨b / 16, by omega, rfl⟩
    · exact ⟨b % 16, by omega, rfl⟩
    · exact ih hb.2 hc

theorem shortStrip_subset {l : List Char} {c : Char} (h : c ∈ shortStrip l) : c ∈ l := by
  induction l with
  | nil => simpa [shortStrip] using h
  | cons x r ih =>
    unfold shortStrip at h
    split at h
    · exact List.mem_cons_of_mem _ (ih h)
    · exact h

theorem shortString_ident {a : List Nat} (ha : a.all (· < 256) = true) :
    ∀ c ∈ shortString a, identChar c = true := by
  intro c hc
  simp only [shortString, List.mem_cons] at hc
  rcases hc with rfl | rfl | hc
  · decide
  · decide
  · obtain ⟨n, hn, rfl⟩ := hexEncodeChars_mem ha (shortStrip_subset hc)
    exact hexDigitChar_ident n hn

theorem shortStrip_spec : ∀ l : List Char, ∃ k, k ≤ l.length ∧ shortStrip l = l.drop k ∧
    ((l.take k).all fun c => c = '0') = true ∧ (l ≠ [] → k < l.length) := by
  intro l
  induction l with
  | nil => exact ⟨0, Nat.le_refl _, rfl, rfl, fun h => absurd rfl h⟩
  | cons c r ih =>
    unfold shortStrip
    by_cases hc : c = '0' ∧ r ≠ []
    · rw [if_pos hc]
      obtain ⟨k, hk1, hk2, hk3, hk4⟩ := ih
      refine ⟨k + 1, by simp; omega, by simpa using hk2, ?_, ?_⟩
      · simp only [List.take_succ_cons, List.all_cons, Bool.and_eq_true, decide_eq_true_eq]
        exact ⟨hc.1, hk3⟩
      · intro _
        have := hk4 hc.2
        simp only [List.length_cons]
        omega
    · rw [if_neg hc]
      exact ⟨0, by simp, rfl, rfl, by simp⟩

theorem angleIdx_eq_none {l : List Char} (h : ∀ c ∈ l, c ≠ '<') : angleIdx l = none := by
  induction l with
  | nil => rfl
  | cons c r ih =>
    unfold angleIdx
    rw [if_neg (h c (List.mem_cons_self c r)), ih fun x hx => h x (List.mem_cons_of_mem c hx)]
    rfl

theorem angleIdx_append_lt {l : List Char} (h : ∀ c ∈ l, c ≠ '<') (r : List Char) :
    angleIdx (l ++ '<' :: r) = some l.length := by
  induction l with
  | nil => simp [angleIdx]
  | cons c t ih =>
    rw [List.cons_append]
    unfold angleIdx
    rw [if_neg (h c (List.mem_cons_self c t)), ih fun x hx => h x (List.mem_cons_of_mem c hx)]
    rfl

theorem sepIdx_cons_ne {x : Char} {t : List Char} (hx : x ≠ ':') :
    sepIdx (x :: t) = (sepIdx t).map (· + 1) := by
  conv_lhs => rw [sepIdx.eq_def]
  split
  · next h => exact absurd h (by simp)
  · next h =>
    injection h with h1 _
    exact absurd h1 hx
  · next y rest h =>
    injection h with h1 h2
    rw [h2]

theorem sepIdx_append {l : List Char} (h : ∀ c ∈ l, c ≠ ':') (r : List Char) :
    sepIdx (l ++ ':' :: ':' :: r) = some l.length := by
  induction l with
  | nil => rfl
  | cons c t ih =>
    rw [List.cons_append, sepIdx_cons_ne (h c (List.mem_cons_self c t)),
      ih fun x hx => h x (List.mem_cons_of_mem c hx)]
    rfl

theorem splitSep2_succ (n : Nat) (s : List Char) :
    splitSep2 (n + 1) s =
      match sepIdx s with
      | none => [s]
      | some i => s.take i :: splitSep2 n (s.drop (i + 2)) := rfl

theorem splitSep2_three (sa mdl nm : List Char)
    (hsa : ∀ c ∈ sa, c ≠ ':') (hm : ∀ c ∈ mdl, c ≠ ':') :
    splitSep2 2 (sa ++ ':' :: ':' :: (mdl ++ ':' :: ':' :: nm)) = [sa, mdl, nm] := by
  rw [splitSep2_succ, sepIdx_append hsa]
  simp only []
  rw [List.take_left]
  have hdrop : (sa ++ ':' :: ':' :: (mdl ++ ':' :: ':' :: nm)).drop (sa.length + 2) =
      mdl ++ ':' :: ':' :: nm := by
    rw [show sa ++ ':' :: ':' :: (mdl ++ ':' :: ':' :: nm) =
      (sa ++ [':', ':']) ++ (mdl ++ ':' :: ':' :: nm) by simp]
    exact List.drop_left' (by simp)
  rw [hdrop, splitSep2_succ, sepIdx_append hm]
  simp only []
  rw [List.take_left]
  have hdrop2 : (mdl ++ ':' :: ':' :: nm).drop (mdl.length + 2) = nm := by
    rw [show mdl ++ ':' :: ':' :: nm = (mdl ++ [':', ':']) ++ nm by simp]
    exact List.drop_left' (by simp)
  rw [hdrop2]
  rfl

theorem segDelta_nil : segDelta [] = 0 := rfl

theorem segDelta_cons (c : Char) (s : List Char) : segDelta (c :: s) = chD c + segDelta s := by
  simp [segDelta]

theorem segOK_cons_lt (d : Int) (r : List Char) : segOK d ('<' :: r) = segOK (d + 1) r := rfl

theorem segOK_cons_gt (d : Int) (r : List Char) : segOK d ('>' :: r) = segOK (d - 1) r := rfl

theorem segOK_cons_comma (d : Int) (r : List Char) :
    segOK d (',' :: r) = (decide (d ≠ 0) && segOK d r) := rfl

theorem segOK_cons_other {c : Char} (h1 : c ≠ '<') (h2 : c ≠ '>') (h3 : c ≠ ',')
    (d : Int) (r : List Char) : segOK d (c :: r) = segOK d r := by
  conv_lhs => rw [segOK.eq_def]
  simp only []
  rw [if_neg h1, if_neg h2, if_neg h3]

theorem chD_eq_zero {c : Char} (h1 : c ≠ '<') (h2 : c ≠ '>') : chD c = 0 := by
  simp [chD, h1, h2]

theorem segDelta_append (a b : List Char) : segDelta (a ++ b) = segDelta a + segDelta b := by
  simp [segDelta]

theorem segOK_append (a b : List Char) (d : Int) :
    segOK d (a ++ b) = (segOK d a && segOK (d + segDelta a) b) := by
  induction a generalizing d with
  | nil => simp [segOK, segDelta]
  | cons c r ih =>
    rw [List.cons_append, segDelta_cons]
    by_cases h1 : c = '<'
    · subst h1
      rw [segOK_cons_lt, segOK_cons_lt, ih, show d + (chD '<' + segDelta r) = d + 1 + segDelta r
        from by show d + (1 + segDelta r) = d + 1 + segDelta r; ring]
    · by_cases h2 : c = '>'
      · subst h2
        rw [segOK_cons_gt, segOK_cons_gt, ih, show d + (chD '>' + segDelta r) = d - 1 + segDelta r
          from by show d + (-1 + segDelta r) = d - 1 + segDelta r; ring]
      · by_cases h3 : c = ','
        · subst h3
          rw [segOK_cons_comma, segOK_cons_comma, ih, Bool.and_assoc,
            show d + (chD ',' + segDelta r) = d + segDelta r from by
              show d + (0 + segDelta r) = d + segDelta r; ring]
        · rw [segOK_cons_other h1 h2 h3, segOK_cons_other h1 h2 h3, ih, chD_eq_zero h1 h2,
            show d + (0 + segDelta r) = d + segDelta r from by ring]

theorem segOK_of_flat {s : List Char} (h : ∀ c ∈ s, c ≠ '<' ∧ c ≠ '>' ∧ c ≠ ',') (d : Int) :
    segOK d s = true := by
  induction s with
  | nil => rfl
  | cons c r ih =>
    obtain ⟨h1, h2, h3⟩ := h c (List.mem_cons_self c r)
    rw [segOK_cons_other h1 h2 h3]
    exact ih fun x hx => h x (List.mem_cons_of_mem c hx)

theorem segDelta_of_flat {s : List Char} (h : ∀ c ∈ s, c ≠ '<' ∧ c ≠ '>') :
    segDelta s = 0 := by
  induction s with
  | nil => rfl
  | cons c r ih =>
    obtain ⟨h1, h2⟩ := h c (List.mem_cons_self c r)
    rw [segDelta_cons, chD_eq_zero h1 h2, ih fun x hx => h x (List.mem_cons_of_mem c hx)]
    ring

theorem joinComma_props (l : List (List Char))
    (h : ∀ x ∈ l, (∀ d : Int, 1 ≤ d → segOK d x = true) ∧ segDelta x = 0) :
    (∀ d : Int, 1 ≤ d → segOK d (joinComma l) = true) ∧ segDelta (joinComma l) = 0 := by
  induction l with
  | nil => exact ⟨fun d _ => rfl, rfl⟩
  | cons x r ih =>
    match r with
    | [] => exact h x (List.mem_cons_self x [])
    | y :: r' =>
      obtain ⟨hx1, hx2⟩ := h x (List.mem_cons_self x (y :: r'))
      obtain ⟨hr1, hr2⟩ := ih fun z hz => h z (List.mem_cons_of_mem x hz)
      rw [show joinComma (x :: y :: r') = x ++ ',' :: ' ' :: joinComma (y :: r') from rfl]
      constructor
      · intro d hd
        rw [segOK_append, hx1 d hd, hx2, add_zero, segOK_cons_comma,
          segOK_cons_other (by decide) (by decide) (by decide), hr1 d hd]
        simp only [Bool.true_and, Bool.and_true, decide_eq_true_eq]
        omega
      · rw [segDelta_append, hx2, segDelta_cons, segDelta_cons, hr2,
          chD_eq_zero (by decide) (by decide), chD_eq_zero (by decide) (by decide)]
        ring

theorem splitSegs_nil (d : Int) (acc : List Char) :
    splitSegs [] d acc = if acc = [] then [] else [acc] := rfl

theorem splitSegs_cons_lt (rest : List Char) (d : Int) (acc : List Char) :
    splitSegs ('<' :: rest) d acc = splitSegs rest (d + 1) (acc ++ ['<']) := rfl

theorem splitSegs_cons_gt (rest : List Char) (d : Int) (acc : List Char) :
    splitSegs ('>' :: rest) d acc = splitSegs rest (d - 1) (acc ++ ['>']) := rfl

theorem splitSegs_cons_comma_zero (rest : List Char) (acc : List Char) :
    splitSegs (',' :: rest) 0 acc = acc :: splitSegs rest 0 [] := by
  conv_lhs => rw [splitSegs.eq_def]
  simp only []
  rw [if_neg (by decide), if_neg (by decide), if_pos (by simp)]

theorem splitSegs_cons_comma_ne (rest : List Char) {d : Int} (hd : d ≠ 0) (acc : List Char) :
    splitSegs (',' :: rest) d acc = splitSegs rest d (acc ++ [',']) := by
  conv_lhs => rw [splitSegs.eq_def]
  simp only []
  rw [if_neg (by decide), if_neg (by decide), if_neg (by simp [hd])]

theorem splitSegs_cons_other {c : Char} (h1 : c ≠ '<') (h2 : c ≠ '>') (h3 : c ≠ ',')
    (rest : List Char) (d : Int) (acc : List Char) :
    splitSegs (c :: rest) d acc = splitSegs rest d (acc ++ [c]) := by
  conv_lhs => rw [splitSegs.eq_def]
  simp only []
  rw [if_neg h1, if_neg h2, if_neg (by simp [h3])]

theorem splitSegs_passthru : ∀ (x : List Char) (d : Int) (acc r : List Char),
    segOK d x = true → splitSegs (x ++ r) d acc = splitSegs r (d + segDelta x) (acc ++ x) := by
  intro x
  induction x with
  | nil =>
    intro d acc r _
    simp [segDelta]
  | cons c x' ih =>
    intro d acc r hok
    rw [List.cons_append, segDelta_cons]
    by_cases h1 : c = '<'
    · subst h1
      rw [segOK_cons_lt] at hok
      rw [splitSegs_cons_lt, ih _ _ _ hok,
        show d + (chD '<' + segDelta x') = d + 1 + segDelta x' from by
          show d + (1 + segDelta x') = d + 1 + segDelta x'; ring]
      simp
    · by_cases h2 : c = '>'
      · subst h2
        rw [segOK_cons_gt] at hok
        rw [splitSegs_cons_gt, ih _ _ _ hok,
          show d + (chD '>' + segDelta x') = d - 1 + segDelta x' from by
            show d + (-1 + segDelta x') = d - 1 + segDelta x'; ring]
        simp
      · by_cases h3 : c = ','
        · subst h3
          rw [segOK_cons_comma] at hok
          simp only [Bool.and_eq_true, decide_eq_true_eq] at hok
          rw [splitSegs_cons_comma_ne _ hok.1, ih _ _ _ hok.2,
            show d + (chD ',' + segDelta x') = d + segDelta x' from by
              show d + (0 + segDelta x') = d + segDelta x'; ring]
          simp
        · rw [segOK_cons_other h1 h2 h3] at hok
          rw [splitSegs_cons_other h1 h2 h3, ih _ _ _ hok, chD_eq_zero h1 h2,
            show d + (0 + segDelta x') = d + segDelta x' from by ring]
          simp

theorem splitSegs_join : ∀ (r : List (List Char)) (x acc : List Char),
    (∀ z ∈ x :: r, segOK 0 z = true ∧ segDelta z = 0 ∧ z ≠ []) →
    splitSegs (joinComma (x :: r)) 0 acc = (acc ++ x) :: r.map (fun y => ' ' :: y) := by
  intro r
  induction r with
  | nil =>
    intro x acc h
    obtain ⟨hok, hδ, hne⟩ := h x (List.mem_cons_self x [])
    rw [show joinComma [x] = x from rfl]
    have hps := splitSegs_passthru x 0 acc [] hok
    rw [List.append_nil] at hps
    rw [hps, hδ, splitSegs_nil, if_neg (by simp [hne])]
    rfl
  | cons y r' ih =>
    intro x acc h
    obtain ⟨hok, hδ, hne⟩ := h x (List.mem_cons_self x (y :: r'))
    rw [show joinComma (x :: y :: r') = x ++ ',' :: ' ' :: joinComma (y :: r') from rfl]
    rw [splitSegs_passthru x 0 acc _ hok, hδ, add_zero, splitSegs_cons_comma_zero,
      splitSegs_cons_other (by decide) (by decide) (by decide)]
    rw [show ([] : List Char) ++ [' '] = [' '] from rfl]
    rw [ih y [' '] fun z hz => h z (List.mem_cons_of_mem x hz)]
    simp

theorem ttListStrings_eq_map : ∀ l : List (Option TTV), ttListStrings l = l.map ttString := by
  intro l
  induction l with
  | nil => rfl
  | cons p r ih => rw [show ttListStrings (p :: r) = ttString p :: ttListStrings r from rfl,
      ih, List.map_cons]

theorem wfList_mem : ∀ {ps : List (Option TTV)} {p : Option TTV},
    wfList ps = true → p ∈ ps → wfOpt p = true := by
  intro ps
  induction ps with
  | nil => intro p _ hp; simp at hp
  | cons q r ih =>
    intro p hw hp
    rw [show wfList (q :: r) = (wfOpt q && wfList r) from rfl, Bool.and_eq_true] at hw
    rcases List.mem_cons.mp hp with rfl | hp'
    · exact hw.1
    · exact ih hw.2 hp'

theorem depthList_mem : ∀ {ps : List (Option TTV)} {p : Option TTV},
    p ∈ ps → depthOpt p ≤ depthList ps := by
  intro ps
  induction ps with
  | nil => intro p hp; simp at hp
  | cons q r ih =>
    intro p hp
    rw [show depthList (q :: r) = max (depthOpt q) (depthList r) from rfl]
    rcases List.mem_cons.mp hp with rfl | hp'
    · exact le_max_left _ _
    · exact le_trans (ih hp') (le_max_right _ _)

theorem depthTTV_pos : ∀ t : TTV, 1 ≤ depthTTV t := by
  intro t
  cases t <;> simp [depthTTV]

theorem joinComma_ne_nil {x : List Char} (hx : x ≠ []) (r : List (List Char)) :
    joinComma (x :: r) ≠ [] := by
  match r with
  | [] => exact hx
  | y :: r' =>
    rw [show joinComma (x :: y :: r') = x ++ ',' :: ' ' :: joinComma (y :: r') from rfl]
    simp

theorem parseSegsGo_cons (p : List Char → Option TTV) (x : List Char) (r : List (List Char)) :
    parseSegsGo p (x :: r) =
      match p (trimSpace x) with
      | none => none
      | some t =>
        match parseSegsGo p r with
        | none => none
        | some ts => some (some t :: ts) := rfl

theorem parseSegsGo_spaced (p : List Char → Option TTV) :
    ∀ ps : List (Option TTV),
      (∀ x ∈ ps, ∃ v, x = some v ∧ trimSpace (ttvString v) = ttvString v ∧
        p (ttvString v) = some v) →
      parseSegsGo p (ps.map fun x => ' ' :: ttString x) = some ps := by
  intro ps
  induction ps with
  | nil => intro _; rfl
  | cons q r ih =>
    intro h
    obtain ⟨v, rfl, htr, hp⟩ := h q (List.mem_cons_self q r)
    rw [List.map_cons, parseSegsGo_cons, trimSpace_cons_space,
      show ttString (some v) = ttvString v from rfl, htr, hp]
    simp only []
    rw [ih fun z hz => h z (List.mem_cons_of_mem _ hz)]

theorem parseTypeParams_print (p : List Char → Option TTV) (ps : List (Option TTV))
    (hne : ps ≠ [])
    (h : ∀ x ∈ ps, ∃ v, x = some v ∧ trimSpace (ttvString v) = ttvString v ∧
      p (ttvString v) = some v ∧ segOK 0 (ttvString v) = true ∧
      segDelta (ttvString v) = 0 ∧ ttvString v ≠ []) :
    parseTypeParamsGo p (joinComma (ttListStrings ps)) = some ps := by
  match ps with
  | [] => exact absurd rfl hne
  | q :: r =>
    obtain ⟨v, rfl, htr, hp, hok, hδ, hnn⟩ := h q (List.mem_cons_self q r)
    unfold parseTypeParamsGo
    rw [ttListStrings_eq_map, List.map_cons,
      show ttString (some v) = ttvString v from rfl]
    have hall : ∀ z ∈ ttvString v :: r.map ttString,
        segOK 0 z = true ∧ segDelta z = 0 ∧ z ≠ [] := by
      intro z hz
      rcases List.mem_cons.mp hz with rfl | hz'
      · exact ⟨hok, hδ, hnn⟩
      · obtain ⟨pq, hpq, rfl⟩ := List.mem_map.mp hz'
        obtain ⟨w, rfl, _, _, hok2, hδ2, hnn2⟩ := h pq (List.mem_cons_of_mem _ hpq)
        exact ⟨hok2, hδ2, hnn2⟩
    rw [splitSegs_join (r.map ttString) (ttvString v) [] hall, List.nil_append,
      parseSegsGo_cons, htr, hp]
    simp only []
    have hseg : parseSegsGo p ((r.map ttString).map fun y => ' ' :: y) = some r := by
      rw [List.map_map]
      exact parseSegsGo_spaced p r fun z hz => by
        obtain ⟨w, rfl, htr2, hp2, _, _, _⟩ := h z (List.mem_cons_of_mem _ hz)
        exact ⟨w, rfl, htr2, hp2⟩
    rw [hseg]

theorem parseStructTagGo_noangle (p : List Char → Option TTV) (s : List Char)
    (h : ∀ c ∈ s, c ≠ '<') :
    parseStructTagGo p s = parseStructHeadGo p s [] := by
  unfold parseStructTagGo
  rw [angleIdx_eq_none h]

theorem parseStructTagGo_angle (p : List Char → Option TTV) (h0 J : List Char)
    (hh : ∀ c ∈ h0, c ≠ '<') :
    parseStructTagGo p (h0 ++ '<' :: (J ++ ['>'])) = parseStructHeadGo p h0 J := by
  unfold parseStructTagGo
  rw [angleIdx_append_lt hh]
  simp only []
  have hsuf : ['>'].isSuffixOf (h0 ++ '<' :: (J ++ ['>'])) = true := by
    rw [List.isSuffixOf_iff_suffix,
      show h0 ++ '<' :: (J ++ ['>']) = (h0 ++ '<' :: J) ++ ['>'] by simp]
    exact List.suffix_append _ _
  rw [if_pos hsuf, List.take_left]
  have hdrop : (h0 ++ '<' :: (J ++ ['>'])).drop (h0.length + 1) = J ++ ['>'] := by
    rw [show h0 ++ '<' :: (J ++ ['>']) = (h0 ++ ['<']) ++ (J ++ ['>']) by simp]
    exact List.drop_left' (by simp)
  rw [hdrop, List.dropLast_concat]

theorem parseStructHeadGo_print (p : List Char → Option TTV)
    (sa mdl nm tps : List Char) (addr : List Nat)
    (hsa : ∀ c ∈ sa, c ≠ ':') (hm : ∀ c ∈ mdl, c ≠ ':')
    (haddr : parseAccountAddress sa = some addr) :
    parseStructHeadGo p (sa ++ ':' :: ':' :: (mdl ++ ':' :: ':' :: nm)) tps =
      (if tps = [] then some (.structT addr mdl nm [])
       else
         match parseTypeParamsGo p tps with
         | none => none
         | some ps => some (.structT addr mdl nm ps)) := by
  unfold parseStructHeadGo
  rw [splitSep2_three sa mdl nm hsa hm]
  simp only [List.length_cons, List.length_nil, List.getD_cons_zero, List.getD_cons_succ]
  rw [if_pos trivial, haddr]

theorem parseTypeTagF_vec (fuel : Nat) (m : List Char)
    (htr : trimSpace ("vector<".toList ++ (m ++ ['>'])) = "vector<".toList ++ (m ++ ['>'])) :
    parseTypeTagF (fuel + 1) ("vector<".toList ++ (m ++ ['>'])) =
      match parseTypeTagF fuel m with
      | none => none
      | some elem => some (.vectorT (some elem)) := by
  conv_lhs => unfold parseTypeTagF
  rw [htr]
  simp only []
  have e0 : ("vector<".toList ++ (m ++ ['>']) : List Char) =
      'v' :: ("ector<".toList ++ (m ++ ['>'])) := rfl
  have h1 : ¬("vector<".toList ++ (m ++ ['>']) = "bool".toList) := by
    rw [e0]; exact cons_ne_of_ne (by decide) _ _
  have h2 : ¬("vector<".toList ++ (m ++ ['>']) = "u8".toList) := by
    rw [e0]; exact cons_ne_of_ne (by decide) _ _
  have h3 : ¬("vector<".toList ++ (m ++ ['>']) = "u16".toList) := by
    rw [e0]; exact cons_ne_of_ne (by decide) _ _
  have h4 : ¬("vector<".toList ++ (m ++ ['>']) = "u32".toList) := by
    rw [e0]; exact cons_ne_of_ne (by decide) _ _
  have h5 : ¬("vector<".toList ++ (m ++ ['>']) = "u64".toList) := by
    rw [e0]; exact cons_ne_of_ne (by decide) _ _
  have h6 : ¬("vector<".toList ++ (m ++ ['>']) = "u128".toList) := by
    rw [e0]; exact cons_ne_of_ne (by decide) _ _
  have h7 : ¬("vector<".toList ++ (m ++ ['>']) = "u256".toList) := by
    rw [e0]; exact cons_ne_of_ne (by decide) _ _
  have h8 : ¬("vector<".toList ++ (m ++ ['>']) = "address".toList) := by
    rw [e0]; exact cons_ne_of_ne (by decide) _ _
  have h9 : ¬("vector<".toList ++ (m ++ ['>']) = "signer".toList) := by
    rw [e0]; exact cons_ne_of_ne (by decide) _ _
  rw [if_neg h1, if_neg h2, if_neg h3, if_neg h4, if_neg h5, if_neg h6, if_neg h7,
    if_neg h8, if_neg h9]
  have hpre : "vector<".toList.isPrefixOf ("vector<".toList ++ (m ++ ['>'])) = true := by
    rw [List.isPrefixOf_iff_prefix]; exact List.prefix_append _ _
  have hsuf : ['>'].isSuffixOf ("vector<".toList ++ (m ++ ['>'])) = true := by
    rw [List.isSuffixOf_iff_suffix,
      show "vector<".toList ++ (m ++ ['>']) = ("vector<".toList ++ m) ++ ['>'] by simp]
    exact List.suffix_append _ _
  rw [if_pos ⟨hpre, hsuf⟩, List.drop_left' (by rfl), List.dropLast_concat]

theorem parseTypeTagF_structcase (fuel : Nat) (rest : List Char)
    (htr : trimSpace ('0' :: rest) = '0' :: rest) :
    parseTypeTagF (fuel + 1) ('0' :: rest) =
      parseStructTagGo (parseTypeTagF fuel) ('0' :: rest) := by
  conv_lhs => unfold parseTypeTagF
  rw [htr]
  simp only []
  have h1 : ¬('0' :: rest = "bool".toList) := cons_ne_of_ne (by decide) _ _
  have h2 : ¬('0' :: rest = "u8".toList) := cons_ne_of_ne (by decide) _ _
  have h3 : ¬('0' :: rest = "u16".toList) := cons_ne_of_ne (by decide) _ _
  have h4 : ¬('0' :: rest = "u32".toList) := cons_ne_of_ne (by decide) _ _
  have h5 : ¬('0' :: rest = "u64".toList) := cons_ne_of_ne (by decide) _ _
  have h6 : ¬('0' :: rest = "u128".toList) := cons_ne_of_ne (by decide) _ _
  have h7 : ¬('0' :: rest = "u256".toList) := cons_ne_of_ne (by decide) _ _
  have h8 : ¬('0' :: rest = "address".toList) := cons_ne_of_ne (by decide) _ _
  have h9 : ¬('0' :: rest = "signer".toList) := cons_ne_of_ne (by decide) _ _
  rw [if_neg h1, if_neg h2, if_neg h3, if_neg h4, if_neg h5, if_neg h6, if_neg h7,
    if_neg h8, if_neg h9, if_neg (by simp [List.isPrefixOf])]

theorem hexEncodeChars_length : ∀ bs : List Nat, (hexEncodeChars bs).length = 2 * bs.length := by
  intro bs
  induction bs with
  | nil => rfl
  | cons b r ih =>
    simp only [hexEncodeChars, List.length_cons, ih]
    ring

theorem hexDecPairs_enc : ∀ bs : List Nat, bs.all (· < 256) = true →
    hexDecPairs (hexEncodeChars bs) = some bs := by
  intro bs
  induction bs with
  | nil => intro _; rfl
  | cons b r ih =>
    intro hb
    simp only [List.all_cons, Bool.and_eq_true, decide_eq_true_eq] at hb
    rw [show hexEncodeChars (b :: r) =
        hexDigitChar (b / 16) :: hexDigitChar (b % 16) :: hexEncodeChars r from rfl]
    rw [show hexDecPairs (hexDigitChar (b / 16) :: hexDigitChar (b % 16) :: hexEncodeChars r) =
        (match fromHexChar (hexDigitChar (b / 16)), fromHexChar (hexDigitChar (b % 16)),
            hexDecPairs (hexEncodeChars r) with
         | some h, some l, some rr => some ((h * 16 + l) :: rr)
         | _, _, _ => none) from rfl]
    rw [fromHexChar_hexDigitChar (b / 16) (by omega),
      fromHexChar_hexDigitChar (b % 16) (by omega), ih hb.2]
    simp only []
    rw [show b / 16 * 16 + b % 16 = b from by omega]

theorem hexEncodeChars_drop : ∀ (j : Nat) (bs : List Nat),
    hexEncodeChars (bs.drop j) = (hexEncodeChars bs).drop (2 * j) := by
  intro j
  induction j with
  | zero => intro bs; rfl
  | succ i ih =>
    intro bs
    match bs with
    | [] => simp [hexEncodeChars]
    | b :: r =>
      rw [show (b :: r).drop (i + 1) = r.drop i from rfl, ih r,
        show hexEncodeChars (b :: r) =
          hexDigitChar (b / 16) :: hexDigitChar (b % 16) :: hexEncodeChars r from rfl,
        show 2 * (i + 1) = 2 * i + 1 + 1 from by ring,
        List.drop_succ_cons, List.drop_succ_cons]

theorem bytes_zero_of_hex_zero : ∀ (j : Nat) (bs : List Nat), bs.all (· < 256) = true →
    j ≤ bs.length → (((hexEncodeChars bs).take (2 * j)).all fun c => c = '0') = true →
    bs.take j = List.replicate j 0 := by
  intro j
  induction j with
  | zero => intro bs _ _ _; rfl
  | succ i ih =>
    intro bs hb hj hz
    match bs with
    | [] => simp at hj
    | b :: r =>
      simp only [List.all_cons, Bool.and_eq_true, decide_eq_true_eq] at hb
      rw [show hexEncodeChars (b :: r) =
          hexDigitChar (b / 16) :: hexDigitChar (b % 16) :: hexEncodeChars r from rfl,
        show 2 * (i + 1) = 2 * i + 1 + 1 from by ring, List.take_succ_cons,
        List.take_succ_cons, List.all_cons, List.all_cons] at hz
      simp only [Bool.and_eq_true, decide_eq_true_eq] at hz
      obtain ⟨hz1, hz2, hz3⟩ := hz
      have hb16 : b / 16 = 0 := hexDigitChar_eq_zero _ (by omega) hz1
      have hb16' : b % 16 = 0 := hexDigitChar_eq_zero _ (by omega) hz2
      have hb0 : b = 0 := by omega
      rw [List.take_succ_cons, hb0, ih r hb.2 (by simp at hj; omega) hz3,
        List.replicate_succ]

theorem parseAccountAddress_shortString {a : List Nat} (hlen : a.length = 32)
    (hlt : a.all (· < 256) = true) :
    parseAccountAddress (shortString a) = some a := by
  have hhexlen : (hexEncodeChars a).length = 64 := by rw [hexEncodeChars_length]; omega
  obtain ⟨k, hk1, hk2, hk3, hk4⟩ := shortStrip_spec (hexEncodeChars a)
  have hkl : k < 64 := by
    have := hk4 (by intro h; rw [h] at hhexlen; simp at hhexlen)
    omega
  have e1 : trimPfx ['0', 'x'] (shortString a) = shortStrip (hexEncodeChars a) := by
    rw [show shortString a = '0' :: 'x' :: shortStrip (hexEncodeChars a) from rfl]
    unfold trimPfx
    rw [if_pos (by simp [List.isPrefixOf])]
    rfl
  have e2 : trimPfx ['0', 'X'] ((hexEncodeChars a).drop k) = (hexEncodeChars a).drop k := by
    match hds : (hexEncodeChars a).drop k with
    | [] => rfl
    | [c] =>
      unfold trimPfx
      rw [if_neg (by simp [List.isPrefixOf])]
    | c :: c2 :: rest =>
      have hc2m : c2 ∈ hexEncodeChars a := by
        apply List.mem_of_mem_drop (n := k)
        rw [hds]
        simp
      obtain ⟨n, hn, hc2e⟩ := hexEncodeChars_mem hlt hc2m
      unfold trimPfx
      rw [if_neg ?hn2]
      case hn2 =>
        intro hpf
        simp only [List.isPrefixOf, Bool.and_eq_true, beq_iff_eq] at hpf
        exact hexDigitChar_ne_X n hn (by rw [← hc2e]; exact hpf.2.1.symm)
  have hallsub : ∀ m : Nat, ((a.drop m).all fun x => decide (x < 256)) = true := by
    intro m
    refine List.all_eq_true.mpr fun x hx => List.all_eq_true.mp hlt x (List.mem_of_mem_drop hx)
  have hfinish : ∀ m : Nat, 2 * m ≤ k →
      (if (a.drop m).length > 32 then none
       else some (List.replicate (32 - (a.drop m).length) 0 ++ a.drop m)) = some a := by
    intro m hm
    have hm32 : m ≤ 32 := by omega
    have hdl : (a.drop m).length = 32 - m := by rw [List.length_drop]; omega
    rw [if_neg (by rw [hdl]; omega), hdl, show 32 - (32 - m) = m from by omega]
    have hz : (((hexEncodeChars a).take (2 * m)).all fun c => c = '0') = true := by
      have htt : (hexEncodeChars a).take (2 * m) = ((hexEncodeChars a).take k).take (2 * m) := by
        rw [List.take_take, min_eq_left hm]
      rw [htt]
      exact List.all_eq_true.mpr fun x hx =>
        List.all_eq_true.mp hk3 x (List.mem_of_mem_take hx)
    have htk : a.take m = List.replicate m 0 :=
      bytes_zero_of_hex_zero m a hlt (by omega) hz
    rw [← htk, List.take_append_drop]
  have hdrop_eq : ∀ m : Nat, 2 * m ≤ k →
      hexDecPairs ((hexEncodeChars a).drop (2 * m)) = some (a.drop m) := by
    intro m hm
    rw [← hexEncodeChars_drop]
    exact hexDecPairs_enc _ (hallsub m)
  unfold parseAccountAddress decodeFixed
  by_cases hodd : ((hexEncodeChars a).drop k).length % 2 = 1
  · have hko : k % 2 = 1 := by
      rw [List.length_drop, hhexlen] at hodd
      omega
    have hb1 : 2 * (k / 2) < (hexEncodeChars a).length := by rw [hhexlen]; omega
    have hchar : (hexEncodeChars a)[2 * (k / 2)] = '0' := by
      have hmem : (hexEncodeChars a)[2 * (k / 2)] ∈ (hexEncodeChars a).take k :=
        List.mem_take_iff_getElem.mpr ⟨2 * (k / 2), lt_min (by omega) hb1, rfl⟩
      have := List.all_eq_true.mp hk3 _ hmem
      simpa using this
    have hsz : (hexEncodeChars a).drop (2 * (k / 2)) = '0' :: (hexEncodeChars a).drop k := by
      rw [List.drop_eq_getElem_cons hb1, hchar, show 2 * (k / 2) + 1 = k from by omega]
    have hdecode : hexDecode (shortString a) =
        hexDecPairs ((hexEncodeChars a).drop (2 * (k / 2))) := by
      unfold hexDecode
      simp only []
      rw [e1, hk2, e2, if_pos hodd, hsz]
    rw [hdecode, hdrop_eq (k / 2) (by omega)]
    simp only []
    exact hfinish (k / 2) (by omega)
  · have hke : k % 2 = 0 := by
      rw [List.length_drop, hhexlen] at hodd
      omega
    have hdecode : hexDecode (shortString a) =
        hexDecPairs ((hexEncodeChars a).drop (2 * (k / 2))) := by
      unfold hexDecode
      simp only []
      rw [e1, hk2, e2, if_neg hodd, show 2 * (k / 2) = k from by omega]
    rw [hdecode, hdrop_eq (k / 2) (by omega)]
    simp only []
    exact hfinish (k / 2) (by omega)

theorem head_some_of_cons {c c' : Char} {l : List Char} (h : (c :: l).head? = some c') :
    c = c' := by
  simpa using h

theorem some_inj_ns {c d : Char} (hd : isSpaceGo d = false) (h : some d = some c) :
    isSpaceGo c = false := by
  injection h with h1
  rw [← h1]
  exact hd

theorem getLast_concat_ns {l : List Char} {d c : Char} (hns : isSpaceGo d = false)
    (h : (l ++ [d]).getLast? = some c) : isSpaceGo c = false := by
  rw [List.getLast?_concat] at h
  exact some_inj_ns hns h

theorem print_ne_nil : ∀ t : TTV, ttvString t ≠ [] := by
  intro t
  cases t with
  | vectorT e =>
    rw [show ttvString (.vectorT e) =
      'v' :: ("ector<".toList ++ ttString e ++ ['>']) from rfl]
    simp
  | structT addr mdl nm params =>
    rw [show ttvString (.structT addr mdl nm params) =
      '0' :: (('x' :: shortStrip (hexEncodeChars addr) ++ (':' :: ':' :: mdl)) ++
        (':' :: ':' :: nm) ++
        (if params.isEmpty then []
         else '<' :: (joinComma (ttListStrings params) ++ ['>']))) from rfl]
    simp
  | boolT => decide
  | u8T => decide
  | u16T => decide
  | u32T => decide
  | u64T => decide
  | u128T => decide
  | u256T => decide
  | addressT => decide
  | signerT => decide

theorem print_head_not_space (t : TTV) :
    ∀ c, (ttvString t).head? = some c → isSpaceGo c = false := by
  cases t with
  | vectorT e =>
    intro c h
    rw [← head_some_of_cons
      (show ('v' :: ("ector<".toList ++ ttString e ++ ['>'])).head? = some c from h)]
    decide
  | structT addr mdl nm params =>
    intro c h
    rw [← head_some_of_cons
      (show ('0' :: (('x' :: shortStrip (hexEncodeChars addr) ++ (':' :: ':' :: mdl)) ++
        (':' :: ':' :: nm) ++
        (if params.isEmpty then []
         else '<' :: (joinComma (ttListStrings params) ++ ['>'])))).head? = some c from h)]
    decide
  | boolT =>
    intro c h
    rw [← head_some_of_cons (show ('b' :: "ool".toList).head? = some c from h)]
    decide
  | u8T =>
    intro c h
    rw [← head_some_of_cons (show ('u' :: "8".toList).head? = some c from h)]
    decide
  | u16T =>
    intro c h
    rw [← head_some_of_cons (show ('u' :: "16".toList).head? = some c from h)]
    decide
  | u32T =>
    intro c h
    rw [← head_some_of_cons (show ('u' :: "32".toList).head? = some c from h)]
    decide
  | u64T =>
    intro c h
    rw [← head_some_of_cons (show ('u' :: "64".toList).head? = some c from h)]
    decide
  | u128T =>
    intro c h
    rw [← head_some_of_cons (show ('u' :: "128".toList).head? = some c from h)]
    decide
  | u256T =>
    intro c h
    rw [← head_some_of_cons (show ('u' :: "256".toList).head? = some c from h)]
    decide
  | addressT =>
    intro c h
    rw [← head_some_of_cons (show ('a' :: "ddress".toList).head? = some c from h)]
    decide
  | signerT =>
    intro c h
    rw [← head_some_of_cons (show ('s' :: "igner".toList).head? = some c from h)]
    decide

theorem print_last_not_space (t : TTV) (hwf : wfTTV t = true) :
    ∀ c, (ttvString t).getLast? = some c → isSpaceGo c = false := by
  cases t with
  | vectorT e =>
    intro c h
    rw [show ttvString (.vectorT e) =
      ("vector<".toList ++ ttString e) ++ ['>'] from rfl] at h
    exact getLast_concat_ns (by decide) h
  | structT addr mdl nm params =>
    rw [show wfTTV (.structT addr mdl nm params) =
      (addrOK addr && mdl.all identChar && nm.all identChar && wfList params) from rfl,
      Bool.and_eq_true, Bool.and_eq_true, Bool.and_eq_true] at hwf
    obtain ⟨⟨⟨_, _⟩, hnm⟩, _⟩ := hwf
    intro c h
    rw [show ttvString (.structT addr mdl nm params) =
      shortString addr ++ (':' :: ':' :: mdl) ++ (':' :: ':' :: nm) ++
        (if params.isEmpty then []
         else '<' :: (joinComma (ttListStrings params) ++ ['>'])) from rfl] at h
    by_cases hpe : params.isEmpty
    · rw [if_pos hpe, List.append_nil] at h
      rcases List.eq_nil_or_concat nm with rfl | ⟨nm', c2, rfl⟩
      · rw [show shortString addr ++ (':' :: ':' :: mdl) ++ (':' :: ':' :: ([] : List Char)) =
          ((shortString addr ++ (':' :: ':' :: mdl)) ++ [':']) ++ [':'] from by simp] at h
        exact getLast_concat_ns (by decide) h
      · rw [List.concat_eq_append] at hnm h
        have hc2 : identChar c2 = true := by
          rw [List.all_append, Bool.and_eq_true] at hnm
          simpa using hnm.2
        rw [show shortString addr ++ (':' :: ':' :: mdl) ++ (':' :: ':' :: (nm' ++ [c2])) =
          ((shortString addr ++ (':' :: ':' :: mdl)) ++ (':' :: ':' :: nm')) ++ [c2]
          from by simp] at h
        exact getLast_concat_ns (identChar_not_space hc2) h
    · rw [if_neg hpe,
        show shortString addr ++ (':' :: ':' :: mdl) ++ (':' :: ':' :: nm) ++
          ('<' :: (joinComma (ttListStrings params) ++ ['>'])) =
          (shortString addr ++ (':' :: ':' :: mdl) ++ (':' :: ':' :: nm) ++
            ('<' :: joinComma (ttListStrings params))) ++ ['>'] from by simp] at h
      exact getLast_concat_ns (by decide) h
  | boolT => exact fun c h => some_inj_ns (by decide) h
  | u8T => exact fun c h => some_inj_ns (by decide) h
  | u16T => exact fun c h => some_inj_ns (by decide) h
  | u32T => exact fun c h => some_inj_ns (by decide) h
  | u64T => exact fun c h => some_inj_ns (by decide) h
  | u128T => exact fun c h => some_inj_ns (by decide) h
  | u256T => exact fun c h => some_inj_ns (by decide) h
  | addressT => exact fun c h => some_inj_ns (by decide) h
  | signerT => exact fun c h => some_inj_ns (by decide) h

theorem trim_print (t : TTV) (hwf : wfTTV t = true) :
    trimSpace (ttvString t) = ttvString t :=
  trimSpace_eq_self _ (print_head_not_space t) (print_last_not_space t hwf)

theorem structHead_flat {addr : List Nat} {mdl nm : List Char}
    (ha256 : addr.all (· < 256) = true) (hmdl : mdl.all identChar = true)
    (hnm : nm.all identChar = true) :
    ∀ c ∈ shortString addr ++ (':' :: ':' :: mdl) ++ (':' :: ':' :: nm),
      c ≠ '<' ∧ c ≠ '>' ∧ c ≠ ',' := by
  intro c hc
  simp only [List.mem_append, List.mem_cons] at hc
  rcases hc with (hc | rfl | rfl | hc) | (rfl | rfl | hc)
  · exact (identChar_facts (shortString_ident ha256 c hc)).2
  · decide
  · decide
  · exact (identChar_facts (List.all_eq_true.mp hmdl c hc)).2
  · decide
  · decide
  · exact (identChar_facts (List.all_eq_true.mp hnm c hc)).2

theorem print_segprops : ∀ n : Nat, ∀ t : TTV, depthTTV t ≤ n → wfTTV t = true →
    (∀ d : Int, 0 ≤ d → segOK d (ttvString t) = true) ∧ segDelta (ttvString t) = 0 := by
  intro n
  induction n with
  | zero =>
    intro t hd _
    exact absurd hd (by have := depthTTV_pos t; omega)
  | succ n ih =>
    intro t hd hwf
    cases t with
    | boolT => exact ⟨fun d _ => rfl, rfl⟩
    | u8T => exact ⟨fun d _ => rfl, rfl⟩
    | u16T => exact ⟨fun d _ => rfl, rfl⟩
    | u32T => exact ⟨fun d _ => rfl, rfl⟩
    | u64T => exact ⟨fun d _ => rfl, rfl⟩
    | u128T => exact ⟨fun d _ => rfl, rfl⟩
    | u256T => exact ⟨fun d _ => rfl, rfl⟩
    | addressT => exact ⟨fun d _ => rfl, rfl⟩
    | signerT => exact ⟨fun d _ => rfl, rfl⟩
    | vectorT e =>
      match e, hwf with
      | none, hwf => exact absurd hwf (by decide)
      | some v, hwf =>
        have hwfv : wfTTV v = true := hwf
        have hdv : depthTTV v ≤ n := by
          have he : depthTTV (.vectorT (some v)) = 1 + depthTTV v := rfl
          omega
        obtain ⟨hok, hδ⟩ := ih v hdv hwfv
        have e1 : ttvString (.vectorT (some v)) = ("vector<".toList ++ ttvString v) ++ ['>'] :=
          rfl
        constructor
        · intro d hd0
          rw [e1, segOK_append, segOK_append, segDelta_append,
            show segDelta "vector<".toList = 1 from by decide,
            show segOK d "vector<".toList = true from rfl,
            hok (d + 1) (by omega), hδ,
            show d + (1 + 0) = d + 1 from by ring,
            show segOK (d + 1) ['>'] = true from rfl]
          rfl
        · rw [e1, segDelta_append, segDelta_append, hδ,
            show segDelta "vector<".toList = 1 from by decide,
            show segDelta ['>'] = -1 from by decide]
          ring
    | structT addr mdl nm params =>
      rw [show wfTTV (.structT addr mdl nm params) =
        (addrOK addr && mdl.all identChar && nm.all identChar && wfList params) from rfl,
        Bool.and_eq_true, Bool.and_eq_true, Bool.and_eq_true] at hwf
      obtain ⟨⟨⟨haok, hmdl⟩, hnm⟩, hps⟩ := hwf
      have ha256 : addr.all (· < 256) = true := by
        simp only [addrOK, Bool.and_eq_true] at haok
        exact haok.2
      have hd0 : depthList params ≤ n := by
        have he : depthTTV (.structT addr mdl nm params) = 1 + depthList params := rfl
        omega
      have hflatH := structHead_flat ha256 hmdl hnm
      by_cases hpe : params.isEmpty
      · have e2 : ttvString (.structT addr mdl nm params) =
            shortString addr ++ (':' :: ':' :: mdl) ++ (':' :: ':' :: nm) := by
          rw [show ttvString (.structT addr mdl nm params) =
            shortString addr ++ (':' :: ':' :: mdl) ++ (':' :: ':' :: nm) ++
              (if params.isEmpty then []
               else '<' :: (joinComma (ttListStrings params) ++ ['>'])) from rfl,
            if_pos hpe, List.append_nil]
        rw [e2]
        exact ⟨fun d _ => segOK_of_flat hflatH d,
          segDelta_of_flat fun c hc => ⟨(hflatH c hc).1, (hflatH c hc).2.1⟩⟩
      · have hjp : (∀ d : Int, 1 ≤ d → segOK d (joinComma (ttListStrings params)) = true) ∧
            segDelta (joinComma (ttListStrings params)) = 0 := by
          apply joinComma_props
          intro x hx
          rw [ttListStrings_eq_map] at hx
          obtain ⟨pq, hpq, rfl⟩ := List.mem_map.mp hx
          have hwo : wfOpt pq = true := wfList_mem hps hpq
          match pq, hwo with
          | none, hwo => exact absurd hwo (by decide)
          | some w, hwo =>
            have hdw : depthTTV w ≤ n :=
              le_trans (show depthTTV w ≤ depthList params from depthList_mem hpq) hd0
            obtain ⟨hok2, hδ2⟩ := ih w hdw hwo
            exact ⟨fun d hd1 => hok2 d (by omega), hδ2⟩
        have e3 : ttvString (.structT addr mdl nm params) =
            (shortString addr ++ (':' :: ':' :: mdl) ++ (':' :: ':' :: nm)) ++
              ('<' :: (joinComma (ttListStrings params) ++ ['>'])) := by
          rw [show ttvString (.structT addr mdl nm params) =
            shortString addr ++ (':' :: ':' :: mdl) ++ (':' :: ':' :: nm) ++
              (if params.isEmpty then []
               else '<' :: (joinComma (ttListStrings params) ++ ['>'])) from rfl,
            if_neg hpe]
        rw [e3]
        constructor
        · intro d hdd
          rw [segOK_append, segOK_of_flat hflatH d,
            segDelta_of_flat fun c hc => ⟨(hflatH c hc).1, (hflatH c hc).2.1⟩,
            add_zero, segOK_cons_lt, segOK_append, hjp.1 (d + 1) (by omega), hjp.2,
            add_zero, show segOK (d + 1) ['>'] = true from rfl]
          rfl
        · rw [segDelta_append,
            segDelta_of_flat fun c hc => ⟨(hflatH c hc).1, (hflatH c hc).2.1⟩,
            segDelta_cons, segDelta_append, hjp.2,
            show chD '<' = 1 from rfl, show segDelta ['>'] = -1 from by decide]
          ring

theorem joinComma_len_ge : ∀ (l : List (List Char)) (x : List Char), x ∈ l →
    x.length ≤ (joinComma l).length := by
  intro l
  induction l with
  | nil =>
    intro x hx
    simp at hx
  | cons y r ih =>
    intro x hx
    rcases List.mem_cons.mp hx with rfl | hx'
    · match r with
      | [] => exact le_refl _
      | z :: r' =>
        rw [show joinComma (x :: z :: r') = x ++ ',' :: ' ' :: joinComma (z :: r') from rfl]
        simp
    · match r with
      | [] => simp at hx'
      | z :: r' =>
        rw [show joinComma (y :: z :: r') = y ++ ',' :: ' ' :: joinComma (z :: r') from rfl]
        have := ih x hx'
        simp only [List.length_append, List.length_cons]
        omega

theorem depthList_le_of (ps : List (Option TTV)) (B : Nat)
    (h : ∀ pq ∈ ps, depthOpt pq ≤ B) : depthList ps ≤ B := by
  induction ps with
  | nil => exact Nat.zero_le B
  | cons q r ih =>
    rw [show depthList (q :: r) = max (depthOpt q) (depthList r) from rfl]
    exact max_le (h q (List.mem_cons_self q r))
      (ih fun pq hpq => h pq (List.mem_cons_of_mem q hpq))

theorem depth_le_len : ∀ n : Nat, ∀ t : TTV, depthTTV t ≤ n →
    depthTTV t ≤ (ttvString t).length := by
  intro n
  induction n with
  | zero =>
    intro t hd
    exact absurd hd (by have := depthTTV_pos t; omega)
  | succ n ih =>
    intro t hd
    cases t with
    | boolT => decide
    | u8T => decide
    | u16T => decide
    | u32T => decide
    | u64T => decide
    | u128T => decide
    | u256T => decide
    | addressT => decide
    | signerT => decide
    | vectorT e =>
      match e with
      | none => decide
      | some v =>
        have hdv : depthTTV v ≤ n := by
          have he : depthTTV (.vectorT (some v)) = 1 + depthTTV v := rfl
          omega
        have hv := ih v hdv
        rw [show ttvString (.vectorT (some v)) = ("vector<".toList ++ ttvString v) ++ ['>']
          from rfl, show depthTTV (.vectorT (some v)) = 1 + depthTTV v from rfl]
        simp only [List.length_append]
        have h7 : ("vector<".toList).length = 7 := rfl
        omega
    | structT addr mdl nm params =>
      rw [show depthTTV (.structT addr mdl nm params) = 1 + depthList params from rfl]
      by_cases hpe : params.isEmpty
      · have h1 : 0 < (ttvString (.structT addr mdl nm params)).length :=
          List.length_pos.mpr (print_ne_nil _)
        have hp0 : params = [] := List.isEmpty_iff.mp hpe
        subst hp0
        rw [show depthList ([] : List (Option TTV)) = 0 from rfl]
        omega
      · have hdlb : depthList params ≤ (joinComma (ttListStrings params)).length := by
          apply depthList_le_of
          intro pq hpq
          match pq with
          | none => exact Nat.zero_le _
          | some w =>
            have hdw : depthTTV w ≤ n := by
              have h1 := depthList_mem hpq
              have he : depthTTV (.structT addr mdl nm params) = 1 + depthList params := rfl
              have h2 : depthTTV w ≤ depthList params := h1
              omega
            have h3 := ih w hdw
            have h4 : (ttvString w).length ≤ (joinComma (ttListStrings params)).length := by
              apply joinComma_len_ge
              rw [ttListStrings_eq_map]
              exact List.mem_map.mpr ⟨some w, hpq, rfl⟩
            exact le_trans h3 h4
        rw [show ttvString (.structT addr mdl nm params) =
          shortString addr ++ (':' :: ':' :: mdl) ++ (':' :: ':' :: nm) ++
            (if params.isEmpty then []
             else '<' :: (joinComma (ttListStrings params) ++ ['>'])) from rfl,
          if_neg hpe]
        simp only [List.length_append, List.length_cons]
        omega

theorem parse_print : ∀ fuel : Nat, ∀ t : TTV, wfTTV t = true → depthTTV t ≤ fuel →
    parseTypeTagF fuel (ttvString t) = some t := by
  intro fuel
  induction fuel with
  | zero =>
    intro t _ hd
    exact absurd hd (by have := depthTTV_pos t; omega)
  | succ n ih =>
    intro t hwf hd
    cases t with
    | boolT => rfl
    | u8T => rfl
    | u16T => rfl
    | u32T => rfl
    | u64T => rfl
    | u128T => rfl
    | u256T => rfl
    | addressT => rfl
    | signerT => rfl
    | vectorT e =>
      match e, hwf with
      | none, hwf => exact absurd hwf (by decide)
      | some v, hwf =>
        have hwfv : wfTTV v = true := hwf
        have hdv : depthTTV v ≤ n := by
          have he : depthTTV (.vectorT (some v)) = 1 + depthTTV v := rfl
          omega
        have e1 : ttvString (.vectorT (some v)) =
            "vector<".toList ++ (ttvString v ++ ['>']) := rfl
        have htr : trimSpace ("vector<".toList ++ (ttvString v ++ ['>'])) =
            "vector<".toList ++ (ttvString v ++ ['>']) := by
          rw [← e1]
          exact trim_print _ hwf
        rw [e1, parseTypeTagF_vec n (ttvString v) htr, ih v hwfv hdv]
    | structT addr mdl nm params =>
      have hco := hwf
      rw [show wfTTV (.structT addr mdl nm params) =
        (addrOK addr && mdl.all identChar && nm.all identChar && wfList params) from rfl,
        Bool.and_eq_true, Bool.and_eq_true, Bool.and_eq_true] at hco
      obtain ⟨⟨⟨haok, hmdl⟩, hnm⟩, hps⟩ := hco
      have ha256 : addr.all (· < 256) = true := by
        have h := haok
        simp only [addrOK, Bool.and_eq_true] at h
        exact h.2
      have halen : addr.length = 32 := by
        have h := haok
        simp only [addrOK, Bool.and_eq_true, decide_eq_true_eq] at h
        exact h.1
      have haddr : parseAccountAddress (shortString addr) = some addr :=
        parseAccountAddress_shortString halen ha256
      have hdparams : depthList params ≤ n := by
        have he : depthTTV (.structT addr mdl nm params) = 1 + depthList params := rfl
        omega
      have hsa : ∀ c ∈ shortString addr, c ≠ ':' := fun c hc =>
        (identChar_facts (shortString_ident ha256 c hc)).1
      have hmc : ∀ c ∈ mdl, c ≠ ':' := fun c hc =>
        (identChar_facts (List.all_eq_true.mp hmdl c hc)).1
      have hflatH := structHead_flat ha256 hmdl hnm
      have hnoangle : ∀ c ∈ shortString addr ++ (':' :: ':' :: mdl) ++ (':' :: ':' :: nm),
          c ≠ '<' := fun c hc => (hflatH c hc).1
      have e3 : ttvString (.structT addr mdl nm params) =
          '0' :: (((('x' :: shortStrip (hexEncodeChars addr)) ++ (':' :: ':' :: mdl)) ++
            (':' :: ':' :: nm)) ++
            (if params.isEmpty then []
             else '<' :: (joinComma (ttListStrings params) ++ ['>']))) := rfl
      have htr3 : trimSpace ('0' :: (((('x' :: shortStrip (hexEncodeChars addr)) ++
          (':' :: ':' :: mdl)) ++ (':' :: ':' :: nm)) ++
          (if params.isEmpty then []
           else '<' :: (joinComma (ttListStrings params) ++ ['>'])))) =
          '0' :: (((('x' :: shortStrip (hexEncodeChars addr)) ++ (':' :: ':' :: mdl)) ++
            (':' :: ':' :: nm)) ++
            (if params.isEmpty then []
             else '<' :: (joinComma (ttListStrings params) ++ ['>']))) := by
        rw [← e3]
        exact trim_print _ hwf
      rw [e3, parseTypeTagF_structcase n _ htr3, ← e3]
      by_cases hpe : params.isEmpty
      · have hp0 : params = [] := List.isEmpty_iff.mp hpe
        subst hp0
        have e4 : ttvString (.structT addr mdl nm []) =
            shortString addr ++ (':' :: ':' :: mdl) ++ (':' :: ':' :: nm) := by
          rw [show ttvString (.structT addr mdl nm []) =
            shortString addr ++ (':' :: ':' :: mdl) ++ (':' :: ':' :: nm) ++
              (if ([] : List (Option TTV)).isEmpty then []
               else '<' :: (joinComma (ttListStrings []) ++ ['>'])) from rfl,
            if_pos hpe, List.append_nil]
        rw [e4, parseStructTagGo_noangle _ _ hnoangle,
          show shortString addr ++ (':' :: ':' :: mdl) ++ (':' :: ':' :: nm) =
            shortString addr ++ ':' :: ':' :: (mdl ++ ':' :: ':' :: nm) from by simp,
          parseStructHeadGo_print (parseTypeTagF n) (shortString addr) mdl nm [] addr
            hsa hmc haddr, if_pos rfl]
      · have e6 : ttvString (.structT addr mdl nm params) =
            (shortString addr ++ (':' :: ':' :: mdl) ++ (':' :: ':' :: nm)) ++
              ('<' :: (joinComma (ttListStrings params) ++ ['>'])) := by
          rw [show ttvString (.structT addr mdl nm params) =
            shortString addr ++ (':' :: ':' :: mdl) ++ (':' :: ':' :: nm) ++
              (if params.isEmpty then []
               else '<' :: (joinComma (ttListStrings params) ++ ['>'])) from rfl,
            if_neg hpe]
        rw [e6, parseStructTagGo_angle _ _ _ hnoangle,
          show shortString addr ++ (':' :: ':' :: mdl) ++ (':' :: ':' :: nm) =
            shortString addr ++ ':' :: ':' :: (mdl ++ ':' :: ':' :: nm) from by simp,
          parseStructHeadGo_print (parseTypeTagF n) (shortString addr) mdl nm
            (joinComma (ttListStrings params)) addr hsa hmc haddr]
        have hpsne : params ≠ [] := by
          intro h
          rw [h] at hpe
          exact hpe rfl
        have hjne : joinComma (ttListStrings params) ≠ [] := by
          match params, hpsne with
          | q :: r, _ =>
            rw [show ttListStrings (q :: r) = ttString q :: ttListStrings r from rfl]
            have hwo : wfOpt q = true := wfList_mem hps (List.mem_cons_self q r)
            match q, hwo with
            | some w, _ => exact joinComma_ne_nil (print_ne_nil w) _
            | none, hwo => exact absurd hwo (by decide)
        rw [if_neg hjne]
        have hparams : parseTypeParamsGo (parseTypeTagF n)
            (joinComma (ttListStrings params)) = some params := by
          apply parseTypeParams_print _ _ hpsne
          intro x hx
          have hwo : wfOpt x = true := wfList_mem hps hx
          match x, hwo with
          | none, hwo => exact absurd hwo (by decide)
          | some w, hwo =>
            have hdw : depthTTV w ≤ n :=
              le_trans (show depthTTV w ≤ depthList params from depthList_mem hx) hdparams
            obtain ⟨hok2, hδ2⟩ := print_segprops (depthTTV w) w le_rfl hwo
            exact ⟨w, rfl, trim_print w hwo, ih w hwo hdw, hok2 0 le_rfl, hδ2,
              print_ne_nil w⟩
        rw [hparams]

/-- C7 (amended): for every well-formed TypeTag value — non-nil
everywhere, a 32-byte address, and module/struct names made of
identifier characters — `ParseTypeTag` applied to its `String()` form
succeeds and returns an equal TypeTag; and the spec's fixtures hold:
`"vector<u8>"` and `"0x1::coin::CoinStore<0x1::aptos_coin::AptosCoin>"`
round-trip through parse then print unchanged.  (The unrestricted claim
is false: a module name containing `"::"` prints to a string that
reparses to a different tag.) -/
theorem typetag_roundtrip_amended :
    (∀ t : TTV, wfTTV t = true → goParseTypeTag (ttvString t) = some t) ∧
    ttString (goParseTypeTag "vector<u8>".toList) = "vector<u8>".toList ∧
    ttString (goParseTypeTag
      "0x1::coin::CoinStore<0x1::aptos_coin::AptosCoin>".toList) =
      "0x1::coin::CoinStore<0x1::aptos_coin::AptosCoin>".toList := by
  refine ⟨?_, by rfl, by rfl⟩
  intro t hwf
  unfold goParseTypeTag
  exact parse_print _ t hwf
    (le_trans (depth_le_len (depthTTV t) t le_rfl) (Nat.le_succ _))

theorem typetag_roundtrip_amended_witness :
    wfTTV (TTV.vectorT (some TTV.u8T)) = true ∧
    goParseTypeTag (ttvString (TTV.vectorT (some TTV.u8T))) =
      some (TTV.vectorT (some TTV.u8T)) :=
  ⟨rfl, typetag_roundtrip_amended.1 _ rfl⟩

/-- C8 counterexample: a struct-tag string whose head has four
`::`-delimited segments is *not* rejected: because `parseStructTag`
splits with `strings.SplitN(s, "::", 3)`, everything after the second
separator becomes the struct name, so `"0x1::a::b::c"` parses
successfully to a struct named `"b::c"`. -/
theorem structtag_four_segments_accepted :
    (splitSep2 3 "0x1::a::b::c".toList).length = 4 ∧
    goParseTypeTag "0x1::a::b::c".toList =
      some (TTV.structT (List.replicate 31 0 ++ [1]) "a".toList "b::c".toList []) := by
  exact ⟨by decide, by rfl⟩

/-- C8 (amended): a struct-tag string whose head splits into fewer than
three `::`-delimited parts is a parse error — in particular
`"invalid::type"` is rejected — but a head with more than three
`::`-segments is not rejected: `SplitN(s, "::", 3)` folds the extra
segments into the struct name. -/
theorem structtag_arity_amended :
    (∀ (p : List Char → Option TTV) (s : List Char),
      (splitSep2 2 (structHead s)).length ≠ 3 → parseStructTagGo p s = none) ∧
    goParseTypeTag "invalid::type".toList = none := by
  refine ⟨?_, by rfl⟩
  intro p s hlen
  unfold parseStructTagGo
  unfold structHead at hlen
  match hai : angleIdx s with
  | some i =>
    rw [hai] at hlen
    simp only [] at hlen ⊢
    by_cases hsuf : ['>'].isSuffixOf s
    · rw [if_pos hsuf]
      unfold parseStructHeadGo
      rw [if_neg hlen]
    · rw [if_neg hsuf]
  | none =>
    rw [hai] at hlen
    simp only [] at hlen ⊢
    unfold parseStructHeadGo
    rw [if_neg hlen]

theorem structtag_arity_amended_witness :
    parseStructTagGo (fun _ => none) "invalid::type".toList = none ∧
    goParseTypeTag "invalid::type".toList = none :=
  ⟨structtag_arity_amended.1 (fun _ => none) "invalid::type".toList (by decide),
   structtag_arity_amended.2⟩

/-- C7 counterexample: printing is not the exact inverse of parsing for
every TypeTag value: the struct tag with module name `"a::b"` and struct
name `"c"` prints as `"0x1::a::b::c"`, which reparses successfully but
to a *different* tag (module `"a"`, name `"b::c"`). -/
theorem typetag_print_parse_not_inverse :
    ttString (some (TTV.structT (List.replicate 31 0 ++ [1])
      "a::b".toList "c".toList [])) = "0x1::a::b::c".toList ∧
    goParseTypeTag "0x1::a::b::c".toList =
      some (TTV.structT (List.replicate 31 0 ++ [1]) "a".toList "b::c".toList []) ∧
    (TTV.structT (List.replicate 31 0 ++ [1]) "a".toList "b::c".toList [] =
      TTV.structT (List.replicate 31 0 ++ [1]) "a::b".toList "c".toList [] →
      False) := by
  refine ⟨by rfl, by rfl, ?_⟩
  intro h
  have h2 := congrArg (fun t => match t with
    | TTV.structT _ mdl _ _ => mdl
    | _ => []) h
  simp only [] at h2
  exact absurd h2 (by decide)

/-- C9 counterexample: `U128FromString` and `U256FromString` do not
reject every non-decimal input: `big.Int.SetString(s, 10)` accepts an
optional leading sign, so `"-1"` and `"+5"` parse successfully. -/
theorem u128_from_string_accepts_sign :
    U128FromString "-1".toList = some (-1) ∧
    U256FromString "-1".toList = some (-1) ∧
    U128FromString "+5".toList = some 5 := by
  refine ⟨?_, ?_, ?_⟩ <;> rfl

/-- C9 (amended): `U128FromString` and `U256FromString` accept exactly
the strings consisting of an optional leading `'+'` or `'-'` sign
followed by one or more decimal digits: inputs containing thousands
separators, a leading `0x`, or any other non-digit character beyond the
optional sign return an error, but signed decimal strings parse
successfully. -/
theorem u128_u256_from_string_amended (s : List Char) :
    ((U128FromString s).isSome = true ↔
      (s ≠ [] ∧
        (if s.headD ' ' = '-' ∨ s.headD ' ' = '+' then s.tail else s) ≠ [] ∧
        ((if s.headD ' ' = '-' ∨ s.headD ' ' = '+' then s.tail else s).all isDigitGo)
          = true)) ∧
    ((U256FromString s).isSome = true ↔
      (s ≠ [] ∧
        (if s.headD ' ' = '-' ∨ s.headD ' ' = '+' then s.tail else s) ≠ [] ∧
        ((if s.headD ' ' = '-' ∨ s.headD ' ' = '+' then s.tail else s).all isDigitGo)
          = true)) ∧
    U128FromString "0x10".toList = none ∧
    U128FromString "1,000".toList = none ∧
    U256FromString "0x10".toList = none := by
  have key : ∀ t : List Char, (setStringBase10 t).isSome = true ↔
      (t ≠ [] ∧
        (if t.headD ' ' = '-' ∨ t.headD ' ' = '+' then t.tail else t) ≠ [] ∧
        ((if t.headD ' ' = '-' ∨ t.headD ' ' = '+' then t.tail else t).all isDigitGo)
          = true) := by
    intro t
    match t with
    | [] => simp [setStringBase10]
    | c :: rest =>
      by_cases hm : c = '-'
      · subst hm
        by_cases hd : rest = []
        · subst hd; simp [setStringBase10]
        · by_cases ha : rest.all isDigitGo
          · simp [setStringBase10, hd, ha]
          · simp [setStringBase10, hd, ha]
      · by_cases hp : c = '+'
        · subst hp
          by_cases hd : rest = []
          · subst hd; simp [setStringBase10]
          · by_cases ha : rest.all isDigitGo
            · simp [setStringBase10, hd, ha]
            · simp [setStringBase10, hd, ha]
        · by_cases ha : (c :: rest).all isDigitGo
          · simp [setStringBase10, hm, hp, ha]
          · simp [setStringBase10, hm, hp, ha]
  exact ⟨key s, key s, by rfl, by rfl, by rfl⟩

theorem u128_u256_from_string_amended_witness :
    (U128FromString "12345".toList).isSome = true ∧
    U128FromString "0x10".toList = none :=
  ⟨(u128_u256_from_string_amended "12345".toList).1.mpr (by decide),
   (u128_u256_from_string_amended "12345".toList).2.2.1⟩

end Aptopher
